import Mathlib

/-!
Verification development for the cpu-scheduler repository: a shallow embedding
of the data model (`src/models/slot.py`, `src/models/agent.py`,
`src/models/market.py`), the ascending-auction engine
(`src/auction/ascending.py`), the equilibrium checker
(`src/auction/equilibrium.py`) and the brute-force optimal baseline
(`src/optimization/integer_program.py`), together with theorems settling the
specification claims.

Modelling conventions:
* Python `float` is modelled by `ℚ` (all arithmetic in the program is exact
  on the rationals it manipulates).
* Python `dict` (insertion-ordered, unique keys) is modelled by an
  association list `List (Int × β)`; `alookup` finds the first binding, and
  `aset` replaces an existing binding in place or appends a new one, exactly
  like dictionary assignment.
* Python `frozenset[Slot]` / `set[Slot]` is modelled by `Finset Slot`.
  Python compares slots and agents by their ids; on the well-formed catalogs
  the theorems quantify over (distinct ids), record equality coincides with
  id equality.
-/

/-- Association-list lookup: the first binding of key `k`, mirroring Python
dictionary access (`d[k]` / `d.get(k, default)`). -/
def alookup {β : Type} (k : Int) : List (Int × β) → Option β
  | [] => none
  | p :: ps => if p.1 = k then some p.2 else alookup k ps

/-- Dictionary read with a default, mirroring Python `d.get(k, default)`. -/
def aget {β : Type} (k : Int) (d : β) (l : List (Int × β)) : β :=
  (alookup k l).getD d

/-- Dictionary assignment `d[k] = v`: replace the binding of `k` in place if
present, otherwise append a fresh binding (Python insertion order). -/
def aset {β : Type} (k : Int) (v : β) (l : List (Int × β)) : List (Int × β) :=
  if (alookup k l).isSome then l.map (fun p => if p.1 = k then (k, v) else p)
  else l ++ [(k, v)]

/-- Slot from `src/models/slot.py`: a discrete time slot with a reserve
price; `time_index`/`cpu_id` support the multi-CPU variant. -/
structure Slot where
  slot_id : Int
  time_label : String
  reserve_price : ℚ
  time_index : Option Int := none
  cpu_id : Int := 0
deriving DecidableEq

/-- Time step for this slot (`slot_id` when single-CPU), from
`Slot.get_time_index`. -/
def Slot.get_time_index (s : Slot) : Int :=
  match s.time_index with
  | none => s.slot_id
  | some t => t

/-- Injective key used only to linearly order `Slot` so that finite sets of
slots can be enumerated by `Finset.sort`; Python iterates sets in an
unspecified order, and no result below depends on the order chosen. -/
def slotKey (s : Slot) : Int ×ₗ String ×ₗ ℚ ×ₗ Int ×ₗ Int ×ₗ Int :=
  toLex (s.slot_id, toLex (s.time_label, toLex (s.reserve_price,
    toLex ((match s.time_index with | none => (0 : Int) | some _ => 1),
      toLex (s.time_index.getD 0, s.cpu_id)))))

theorem slotKey_injective : Function.Injective slotKey := by
  intro a b h
  cases a with | mk aid alab ares atix acpu =>
  cases b with | mk bid blab bres btix bcpu =>
  simp only [slotKey, toLex_inj, Prod.mk.injEq] at h
  obtain ⟨h1, h2, h3, h4, h5, h6⟩ := h
  cases atix <;> cases btix <;> simp_all

instance : LinearOrder Slot :=
  LinearOrder.lift' slotKey slotKey_injective

/-- Deterministic enumeration of a finite set of slots (see `slotKey`). -/
def slotList (s : Finset Slot) : List Slot :=
  s.sort (· ≤ ·)

/-- Agent (job) from `src/models/agent.py`. -/
structure Agent where
  agent_id : Int
  name : String
  deadline_slot_id : Int
  required_slots : Nat
  worth : ℚ
deriving DecidableEq

/-- List indexing with default 0, mirroring `times[i]` on the index ranges
the source actually reaches. -/
def tget (l : List Int) (n : Nat) : Int :=
  l.getD n 0

/-- Translation of `Agent._has_consecutive_run`: true iff the bundle contains
`length` slots with consecutive time indices before the deadline on one CPU.
The per-CPU grouping is an existential over CPUs (dictionary iteration order
is irrelevant to the boolean result), and `sorted(set(times))` is
`Finset.sort` of the image. -/
def Agent.has_consecutive_run (a : Agent) (allocated_slots : Finset Slot) (length : Nat) : Bool :=
  let pre := allocated_slots.filter (fun s => s.get_time_index < a.deadline_slot_id)
  let cpus := pre.image (fun s => s.cpu_id)
  (cpus.sort (· ≤ ·)).any (fun c =>
    let times := ((pre.filter (fun s => s.cpu_id = c)).image Slot.get_time_index).sort (· ≤ ·)
    if times.length < length then false
    else (List.range (times.length - length + 1)).any (fun i =>
      tget times (i + length - 1) - tget times i = (length : Int) - 1))

/-- Translation of `Agent.valuation`: all-or-nothing worth. -/
def Agent.valuation (a : Agent) (allocated_slots : Finset Slot) : ℚ :=
  if allocated_slots = ∅ then 0
  else if a.has_consecutive_run allocated_slots a.required_slots then a.worth
  else 0

/-- Translation of `Agent.surplus`: valuation minus the sum of the bundle
slots' prices (`prices.get(slot_id, 0.0)`). -/
def Agent.surplus (a : Agent) (allocated_slots : Finset Slot) (prices : List (Int × ℚ)) : ℚ :=
  a.valuation allocated_slots - ∑ s ∈ allocated_slots, aget s.slot_id 0 prices

/-- Translation of `Agent.get_valid_slots`: slots before the deadline. -/
def Agent.get_valid_slots (a : Agent) (all_slots : List Slot) : List Slot :=
  all_slots.filter (fun s => s.get_time_index < a.deadline_slot_id)

/-- One step of the `by_cpu.setdefault(s.cpu_id, []).append(s)` loop in
`Agent.find_best_bundle`: append `s` to its CPU group, creating the group at
the end on first appearance. -/
def addToGroup (acc : List (Int × List Slot)) (s : Slot) : List (Int × List Slot) :=
  if (alookup s.cpu_id acc).isSome then
    acc.map (fun p => if p.1 = s.cpu_id then (p.1, p.2 ++ [s]) else p)
  else acc ++ [(s.cpu_id, [s])]

/-- Grouping of slots by `cpu_id` in first-appearance order, each group in
original list order, as built by the `setdefault` loop. -/
def groupByCpu (slots : List Slot) : List (Int × List Slot) :=
  slots.foldl addToGroup []

/-- Stable ascending sort by time index, modelling
`sorted(by_cpu[c], key=lambda s: s.get_time_index())`. -/
def sortByTime (l : List Slot) : List Slot :=
  l.insertionSort (fun s t => s.get_time_index ≤ t.get_time_index)

/-- The inner window scan of `Agent.find_best_bundle` over one sorted CPU
group: slide a window of `required_slots` consecutive positions, reject
windows whose time span is not exactly `required_slots - 1`, and keep the
strictly greatest surplus. -/
def Agent.scanGroup (a : Agent) (prices : List (Int × ℚ)) (best : Finset Slot × ℚ)
    (g : List Slot) : Finset Slot × ℚ :=
  if g.length < a.required_slots then best
  else
    (List.range (g.length - a.required_slots + 1)).foldl
      (fun b i =>
        let window := (g.drop i).take a.required_slots
        let times := window.map Slot.get_time_index
        if tget times (a.required_slots - 1) - tget times 0 ≠ (a.required_slots : Int) - 1 then b
        else
          let bundle := window.toFinset
          let s := a.surplus bundle prices
          if b.2 < s then (bundle, s) else b)
      best

/-- Translation of `Agent.find_best_bundle`: group the valid slots by CPU,
sort each group by time, scan all contiguous windows of exactly
`required_slots` slots keeping the strictly greatest surplus (initial best:
empty bundle, surplus 0), and fall back to the empty bundle if the best
surplus is negative. -/
def Agent.find_best_bundle (a : Agent) (all_slots : List Slot) (prices : List (Int × ℚ))
    (_current_allocation : Finset Slot) : Finset Slot × ℚ :=
  let valid_slots := a.get_valid_slots all_slots
  let by_cpu := groupByCpu valid_slots
  let best := by_cpu.foldl (fun b p => a.scanGroup prices b (sortByTime p.2)) (∅, 0)
  if best.2 < 0 then (∅, 0) else best

/-- Market state from `src/models/market.py`: agent and slot catalogs plus
the two mutable dictionaries (allocation per agent id, bid price per slot
id). -/
structure Market where
  agents : List Agent
  slots : List Slot
  allocations : List (Int × Finset Slot)
  bid_prices : List (Int × ℚ)
deriving DecidableEq

/-- Construction of a `Market` from catalogs alone: `Market.__post_init__`
fills the allocation map with empty bundles and the bid-price map with the
slots' reserve prices. -/
def Market.init (agents : List Agent) (slots : List Slot) : Market :=
  { agents := agents
    slots := slots
    allocations := agents.map (fun a => (a.agent_id, (∅ : Finset Slot)))
    bid_prices := slots.map (fun s => (s.slot_id, s.reserve_price)) }

/-- Translation of `Market.get_allocation` (`allocations.get(id, frozenset())`). -/
def Market.get_allocation (m : Market) (a : Agent) : Finset Slot :=
  (alookup a.agent_id m.allocations).getD ∅

/-- Translation of `Market.set_allocation`. -/
def Market.set_allocation (m : Market) (a : Agent) (slots : Finset Slot) : Market :=
  { m with allocations := aset a.agent_id slots m.allocations }

/-- Translation of `Market.get_bid_price` (`bid_prices.get(id, reserve)`). -/
def Market.get_bid_price (m : Market) (s : Slot) : ℚ :=
  aget s.slot_id s.reserve_price m.bid_prices

/-- Translation of `Market.get_unallocated_slots`: the slot catalog minus
every allocated bundle. -/
def Market.get_unallocated_slots (m : Market) : Finset Slot :=
  m.slots.toFinset \ m.allocations.foldl (fun acc p => acc ∪ p.2) ∅

/-- Translation of `Market.get_slot_owner`: the first agent in catalog order
whose bundle contains the slot. -/
def Market.get_slot_owner (m : Market) (s : Slot) : Option Agent :=
  m.agents.find? (fun a => s ∈ m.get_allocation a)

/-- Translation of `Market.compute_ask_prices`: held slots at the current
bid, all others at bid + epsilon.  The source reads
`self.bid_prices[slot.slot_id]` directly; the embedding totalises that read
with the `get_bid_price` default, which agrees with it on every market whose
price map binds all of its slots (every market the engine ever sees). -/
def Market.compute_ask_prices (m : Market) (agent : Agent) (epsilon : ℚ) : List (Int × ℚ) :=
  m.slots.foldl
    (fun acc s =>
      if s ∈ m.get_allocation agent then aset s.slot_id (m.get_bid_price s) acc
      else aset s.slot_id (m.get_bid_price s + epsilon) acc)
    []

/-- Translation of `Market.compute_solution_value`: reserve value of the
unallocated slots plus every agent's realized valuation. -/
def Market.compute_solution_value (m : Market) : ℚ :=
  (∑ s ∈ m.get_unallocated_slots, s.reserve_price)
    + (m.agents.map (fun a => a.valuation (m.get_allocation a))).sum

/-- Result record from `src/auction/equilibrium.py` (the diagnostic
`violations` strings are presentation only and are not modelled). -/
structure EquilibriumCheckResult where
  is_equilibrium : Bool
  surplus_maximization_satisfied : Bool
  unallocated_price_satisfied : Bool
  allocated_price_satisfied : Bool
  agent_surpluses : List (Int × ℚ)
  best_surpluses : List (Int × ℚ)

/-- Translation of `EquilibriumChecker.check`.  Condition 1 records a
violation when `best_surplus > current_surplus + tolerance`; condition 2 when
`abs(price - reserve) > tolerance` for an unallocated slot; condition 3 when
`price < reserve - tolerance` for an allocated slot.  Each `ok` flag is the
conjunction over the corresponding loop, and `is_equilibrium` the conjunction
of the three flags. -/
def EquilibriumChecker.check (m : Market) (tolerance : ℚ) : EquilibriumCheckResult :=
  let agentData := m.agents.map (fun a =>
    (a.agent_id, a.surplus (m.get_allocation a) m.bid_prices,
      (a.find_best_bundle m.slots m.bid_prices ∅).2))
  let surplus_ok := agentData.all (fun p => decide (p.2.2 ≤ p.2.1 + tolerance))
  let unallocated_ok := (slotList m.get_unallocated_slots).all
    (fun s => decide (|m.get_bid_price s - s.reserve_price| ≤ tolerance))
  let allocated_ok := (slotList (m.slots.toFinset \ m.get_unallocated_slots)).all
    (fun s => decide (s.reserve_price - tolerance ≤ m.get_bid_price s))
  { is_equilibrium := surplus_ok && unallocated_ok && allocated_ok
    surplus_maximization_satisfied := surplus_ok
    unallocated_price_satisfied := unallocated_ok
    allocated_price_satisfied := allocated_ok
    agent_surpluses := agentData.map (fun p => (p.1, p.2.1))
    best_surpluses := agentData.map (fun p => (p.1, p.2.2)) }

/-- Solution record from `src/optimization/integer_program.py`. -/
structure IPSolution where
  allocations : List (Int × Finset Slot)
  optimal_welfare : WithBot ℚ
  solved : Bool
  solver_message : String

/-- All length-`k` combinations of a list in `itertools.combinations` order:
combinations containing the head first, then the rest. -/
def combos {α : Type} : Nat → List α → List (List α)
  | 0, _ => [[]]
  | _ + 1, [] => []
  | k + 1, x :: xs => (combos k xs).map (fun c => x :: c) ++ combos (k + 1) xs

/-- Translation of `IntegerProgramSolver._generate_bundles` for one agent:
every bundle of exactly `required_slots` valid slots with positive valuation,
followed by the empty bundle. -/
def generateBundles (slots : List Slot) (a : Agent) : List (Finset Slot) :=
  let valid_slots := a.get_valid_slots slots
  let sized :=
    if a.required_slots ≤ valid_slots.length then
      (combos a.required_slots valid_slots).filterMap (fun c =>
        if 0 < a.valuation c.toFinset then some c.toFinset else none)
    else []
  sized ++ [∅]

/-- Cartesian product of per-agent bundle-choice lists, in
`itertools.product` order. -/
def allCombos {α : Type} : List (List α) → List (List α)
  | [] => [[]]
  | l :: ls => (l.map (fun x => (allCombos ls).map (fun c => x :: c))).flatten

/-- The sequential conflict check of `_solve_brute_force`: walk the chosen
bundles keeping the set of used slots, failing at the first overlap. -/
def seqValid (used : Finset Slot) : List (Finset Slot) → Bool
  | [] => true
  | b :: bs => if (used ∩ b).Nonempty then false else seqValid (used ∪ b) bs

/-- Translation of `IntegerProgramSolver._compute_welfare`: reserve value of
the slots in no chosen bundle plus every agent's valuation of its bundle. -/
def computeWelfareIP (agents : List Agent) (slots : List Slot)
    (allocation : List (Int × Finset Slot)) : ℚ :=
  let allocated := allocation.foldl (fun acc p => acc ∪ p.2) ∅
  (∑ s ∈ slots.toFinset \ allocated, s.reserve_price)
    + (agents.map (fun a => a.valuation ((alookup a.agent_id allocation).getD ∅))).sum

/-- Translation of `IntegerProgramSolver._solve_brute_force` (which `solve`
delegates to): enumerate the Cartesian product of per-agent bundle choices,
discard combinations with a slot conflict, and keep the strictly greatest
welfare starting from `float("-inf")` (modelled by `⊥ : WithBot ℚ`). -/
def IntegerProgramSolver.solve (agents : List Agent) (slots : List Slot) : IPSolution :=
  let bundleLists := agents.map (fun a => generateBundles slots a)
  let best := (allCombos bundleLists).foldl
    (fun best combo =>
      if seqValid ∅ combo then
        let alloc := (agents.map (fun a => a.agent_id)).zip combo
        let w := computeWelfareIP agents slots alloc
        if best.1 < (w : WithBot ℚ) then ((w : WithBot ℚ), alloc) else best
      else best)
    ((⊥ : WithBot ℚ), [])
  { allocations := best.2
    optimal_welfare := best.1
    solved := true
    solver_message := "Solved by brute force enumeration" }

/-- Trace record of a single auction round (`AuctionRound` in
`src/auction/ascending.py`): the allocation snapshot maps each agent id to
its sorted slot ids, and `bid_prices` lists prices in slot-catalog order,
both taken before the round's updates are applied. -/
structure AuctionRound where
  round_num : Nat
  bidder : Agent
  slots_bid_on : Finset Slot
  allocations : List (Int × List Int)
  bid_prices : List ℚ

/-- Result record of `AscendingAuction.run`. -/
structure AuctionResult where
  market : Market
  rounds : List AuctionRound
  converged : Bool
  iterations : Nat
  final_welfare : ℚ

/-- The auction engine's parameters (`AscendingAuction.__init__`). -/
structure AscendingAuction where
  epsilon : ℚ
  max_iterations : Nat

/-- Allocation part of a trace entry: each agent's sorted slot-id list. -/
def allocSnapshot (m : Market) : List (Int × List Int) :=
  m.agents.map (fun a =>
    (a.agent_id, ((m.get_allocation a).image Slot.slot_id).sort (· ≤ ·)))

/-- Price part of a trace entry: `bid_prices.get(id, reserve)` in slot order. -/
def priceSnapshot (m : Market) : List ℚ :=
  m.slots.map (fun s => m.get_bid_price s)

/-- Intermediate state of `AscendingAuction.run`'s loop. -/
structure RunState where
  market : Market
  rounds : List AuctionRound
  round_num : Nat
  iteration : Nat

/-- The per-slot body of the `for slot in new_slots` loop: increment the
slot's bid price by epsilon (the source reads `bid_prices[slot.slot_id]`
directly; totalised with the reserve default as in `get_bid_price`), then
evict the slot from its current owner when that owner is a different agent
(Python compares agents by `agent_id`). -/
def bidUpdate (epsilon : ℚ) (agent : Agent) (m : Market) (slot : Slot) : Market :=
  let m1 := { m with
    bid_prices := aset slot.slot_id (m.get_bid_price slot + epsilon) m.bid_prices }
  match m1.get_slot_owner slot with
  | some owner =>
      if owner.agent_id ≠ agent.agent_id then
        m1.set_allocation owner (m1.get_allocation owner \ {slot})
      else m1
  | none => m1

/-- One agent's round (the body of `for agent in market.agents`): compute ask
prices, find the best bundle, record the trace entry from the pre-update
state, apply the per-slot updates for the newly bid slots, install the new
bundle when it differs, and accumulate the pass's changed flag. -/
def auctionRoundStep (epsilon : ℚ) (st : RunState × Bool) (agent : Agent) : RunState × Bool :=
  let m := st.1.market
  let round_num := st.1.round_num + 1
  let ask_prices := m.compute_ask_prices agent epsilon
  let current_allocation := m.get_allocation agent
  let bb := agent.find_best_bundle m.slots ask_prices current_allocation
  let new_slots := bb.1 \ current_allocation
  let entry : AuctionRound :=
    { round_num := round_num
      bidder := agent
      slots_bid_on := new_slots
      allocations := allocSnapshot m
      bid_prices := priceSnapshot m }
  let m1 := (slotList new_slots).foldl (bidUpdate epsilon agent) m
  let m2 := if bb.1 ≠ current_allocation then m1.set_allocation agent bb.1 else m1
  let changed := st.2 || decide (new_slots ≠ ∅) || decide (bb.1 ≠ current_allocation)
  (⟨m2, st.1.rounds ++ [entry], round_num, st.1.iteration⟩, changed)

/-- One full pass over all agents, returning the pass's `any_change` flag. -/
def runPass (epsilon : ℚ) (st : RunState) : RunState × Bool :=
  st.market.agents.foldl (auctionRoundStep epsilon) (st, false)

/-- The `while iteration < max_iterations` loop, with the remaining pass
budget as fuel: run a pass, count it, and stop when it made no change. -/
def runPasses (epsilon : ℚ) : Nat → RunState → RunState
  | 0, st => st
  | fuel + 1, st =>
      let r := runPass epsilon st
      let st1 : RunState := { r.1 with iteration := r.1.iteration + 1 }
      if r.2 then runPasses epsilon fuel st1 else st1

/-- Lines 99-173 of `AscendingAuction.run`: the whole bidding loop on the
engine's market (the copy-on-entry aliasing is modelled separately by the
store semantics below). -/
def AscendingAuction.runLoop (A : AscendingAuction) (m : Market) : RunState :=
  runPasses A.epsilon A.max_iterations
    { market := m, rounds := [], round_num := 0, iteration := 0 }

/-- Translation of `AscendingAuction.run` after the loop: line 174 computes
`converged = iteration < max_iterations`, and line 175 then evaluates
`market.compute_welfare()` — a method `Market` does not define (its welfare
method is `compute_solution_value`) — so every call raises `AttributeError`
instead of building the `AuctionResult`. -/
def AscendingAuction.run (A : AscendingAuction) (m : Market) : Except String AuctionResult :=
  let st := A.runLoop m
  let _converged := decide (st.iteration < A.max_iterations)
  Except.error "AttributeError: Market object has no attribute compute_welfare"

/-! ### Claim C1: the run's result contract -/

/-- Claim C1: refuted by the code — `AscendingAuction.run` reaches
`market.compute_welfare()` on line 175, but `Market` defines no such method
(`compute_solution_value` is its welfare computation), so every run raises
`AttributeError` instead of returning an `AuctionResult`; the repository's
own tests read `result.final_welfare` and therefore cannot pass.  This
theorem evaluates the translated `run` on every market, in particular on
every failing input. -/
theorem run_always_raises (A : AscendingAuction) (m : Market) :
    A.run m =
      Except.error "AttributeError: Market object has no attribute compute_welfare" :=
  rfl

/-! ### Claim C3: the equilibrium checker's conditions -/

/-- Specification-side statement of equilibrium condition 1 (§4.4): every
agent's best surplus — recomputed by the bundle optimizer with an empty
current-allocation seed at the current prices — exceeds its realized surplus
by at most the tolerance. -/
def SurplusMaximizationCond (m : Market) (tolerance : ℚ) : Prop :=
  ∀ a ∈ m.agents,
    (a.find_best_bundle m.slots m.bid_prices ∅).2
      ≤ a.surplus (m.get_allocation a) m.bid_prices + tolerance

/-- Specification-side statement of equilibrium condition 2 (§4.4): every
unallocated slot's price equals its reserve price within the tolerance. -/
def UnallocatedPriceCond (m : Market) (tolerance : ℚ) : Prop :=
  ∀ s ∈ m.get_unallocated_slots, |m.get_bid_price s - s.reserve_price| ≤ tolerance

/-- Specification-side statement of equilibrium condition 3 (§4.4): every
allocated slot's price is at least its reserve price minus the tolerance. -/
def AllocatedPriceCond (m : Market) (tolerance : ℚ) : Prop :=
  ∀ s ∈ m.slots.toFinset \ m.get_unallocated_slots,
    s.reserve_price - tolerance ≤ m.get_bid_price s

/-- Claim C3: the equilibrium checker returns `is_equilibrium = true` iff
all three equilibrium conditions hold, and each individual boolean in the
result reflects exactly its condition. -/
theorem equilibrium_check_iff (m : Market) (tolerance : ℚ) :
    ((EquilibriumChecker.check m tolerance).surplus_maximization_satisfied = true ↔
      SurplusMaximizationCond m tolerance) ∧
    ((EquilibriumChecker.check m tolerance).unallocated_price_satisfied = true ↔
      UnallocatedPriceCond m tolerance) ∧
    ((EquilibriumChecker.check m tolerance).allocated_price_satisfied = true ↔
      AllocatedPriceCond m tolerance) ∧
    ((EquilibriumChecker.check m tolerance).is_equilibrium = true ↔
      (SurplusMaximizationCond m tolerance ∧ UnallocatedPriceCond m tolerance ∧
        AllocatedPriceCond m tolerance)) := by
  have h1 : (EquilibriumChecker.check m tolerance).surplus_maximization_satisfied = true ↔
      SurplusMaximizationCond m tolerance := by
    simp [EquilibriumChecker.check, SurplusMaximizationCond, List.all_eq_true]
  have h2 : (EquilibriumChecker.check m tolerance).unallocated_price_satisfied = true ↔
      UnallocatedPriceCond m tolerance := by
    simp [EquilibriumChecker.check, UnallocatedPriceCond, List.all_eq_true, slotList,
      Finset.mem_sort]
  have h3 : (EquilibriumChecker.check m tolerance).allocated_price_satisfied = true ↔
      AllocatedPriceCond m tolerance := by
    simp [EquilibriumChecker.check, AllocatedPriceCond, List.all_eq_true, slotList,
      Finset.mem_sort]
  refine ⟨h1, h2, h3, ?_⟩
  have h4 : (EquilibriumChecker.check m tolerance).is_equilibrium =
      ((EquilibriumChecker.check m tolerance).surplus_maximization_satisfied &&
        (EquilibriumChecker.check m tolerance).unallocated_price_satisfied &&
        (EquilibriumChecker.check m tolerance).allocated_price_satisfied) := rfl
  rw [h4]
  simp only [Bool.and_eq_true]
  rw [h1, h2, h3]
  tauto

/-! ### Analysis of the window scan in `Agent.find_best_bundle` -/

/-- The window-acceptance test of the scan: the time span of the
`required_slots`-element window is exactly `required_slots - 1`. -/
def spanOk (k : Nat) (w : List Slot) : Bool :=
  decide (tget (w.map Slot.get_time_index) (k - 1) - tget (w.map Slot.get_time_index) 0
    = (k : Int) - 1)

/-- The strictly-greater argmax update of the scan, abstracted over the score
function. -/
def argmaxStep (f : List Slot → ℚ) (b : Finset Slot × ℚ) (w : List Slot) : Finset Slot × ℚ :=
  if b.2 < f w then (w.toFinset, f w) else b

/-- The list of index windows `group[i : i + k]` the scan enumerates, in
ascending `i`. -/
def windowList (k : Nat) (g : List Slot) : List (List Slot) :=
  if g.length < k then [] else (List.range (g.length - k + 1)).map (fun i => (g.drop i).take k)

theorem foldl_filter_eq {α β : Type} (p : α → Bool) (f : β → α → β) (l : List α) (b : β) :
    (l.filter p).foldl f b = l.foldl (fun x y => if p y then f x y else x) b := by
  induction l generalizing b with
  | nil => rfl
  | cons x xs ih => by_cases h : p x <;> simp [List.filter_cons, h, ih]

theorem scanGroup_eq (a : Agent) (prices : List (Int × ℚ)) (best : Finset Slot × ℚ)
    (g : List Slot) :
    a.scanGroup prices best g =
      ((windowList a.required_slots g).filter (spanOk a.required_slots)).foldl
        (argmaxStep (fun w => a.surplus w.toFinset prices)) best := by
  rw [foldl_filter_eq]
  unfold Agent.scanGroup windowList
  by_cases h : g.length < a.required_slots
  · simp [h]
  · simp only [if_neg h, List.foldl_map]
    apply List.foldl_ext
    intro b i _
    simp only [spanOk, argmaxStep]
    by_cases hsp : tget ((((g.drop i).take a.required_slots)).map Slot.get_time_index)
        (a.required_slots - 1)
        - tget ((((g.drop i).take a.required_slots)).map Slot.get_time_index) 0
        = (a.required_slots : Int) - 1
    · simp [hsp]
    · simp [hsp]

theorem foldl_flatten_eq {α β : Type} (f : β → α → β) (L : List (List α)) (b : β) :
    L.flatten.foldl f b = L.foldl (fun x l => l.foldl f x) b := by
  induction L generalizing b with
  | nil => rfl
  | cons l ls ih => simp [List.flatten_cons, List.foldl_append, ih]

/-- The full accepted-candidate enumeration of `Agent.find_best_bundle`, i.e.
the flattened list of span-accepted windows, in the order the code scans them
(groups in first-appearance order of `cpu_id`, windows by ascending start
position). -/
def codeWindows (a : Agent) (all_slots : List Slot) : List (List Slot) :=
  ((groupByCpu (a.get_valid_slots all_slots)).map
    (fun p => (windowList a.required_slots (sortByTime p.2)).filter (spanOk a.required_slots))).flatten

theorem find_best_bundle_eq (a : Agent) (all_slots : List Slot) (prices : List (Int × ℚ))
    (cur : Finset Slot) :
    a.find_best_bundle all_slots prices cur =
      (if ((codeWindows a all_slots).foldl
            (argmaxStep (fun w => a.surplus w.toFinset prices)) (∅, 0)).2 < 0 then (∅, 0)
       else (codeWindows a all_slots).foldl
            (argmaxStep (fun w => a.surplus w.toFinset prices)) (∅, 0)) := by
  have hfold : (groupByCpu (a.get_valid_slots all_slots)).foldl
      (fun b p => a.scanGroup prices b (sortByTime p.2)) (∅, 0) =
      (codeWindows a all_slots).foldl
        (argmaxStep (fun w => a.surplus w.toFinset prices)) (∅, 0) := by
    unfold codeWindows
    rw [foldl_flatten_eq, List.foldl_map]
    apply List.foldl_ext
    intro b p _
    exact scanGroup_eq a prices b (sortByTime p.2)
  unfold Agent.find_best_bundle
  dsimp only
  rw [hfold]

theorem argmaxStep_value_le {f : List Slot → ℚ} (b : Finset Slot × ℚ) (w : List Slot) :
    b.2 ≤ (argmaxStep f b w).2 := by
  unfold argmaxStep
  split
  · exact le_of_lt (by assumption)
  · exact le_refl _

theorem argmax_foldl_value_le {f : List Slot → ℚ} (l : List (List Slot)) (b : Finset Slot × ℚ) :
    b.2 ≤ (l.foldl (argmaxStep f) b).2 := by
  induction l generalizing b with
  | nil => exact le_refl _
  | cons x xs ih => exact le_trans (argmaxStep_value_le b x) (ih _)

theorem argmax_foldl_mem_le {f : List Slot → ℚ} (l : List (List Slot)) (b : Finset Slot × ℚ) :
    ∀ w ∈ l, f w ≤ (l.foldl (argmaxStep f) b).2 := by
  induction l generalizing b with
  | nil => intro w hw; cases hw
  | cons x xs ih =>
      intro w hw
      rcases List.mem_cons.mp hw with h | h
      · subst h
        refine le_trans ?_ (argmax_foldl_value_le xs (argmaxStep f b w))
        unfold argmaxStep
        split
        · exact le_refl _
        · exact le_of_not_lt (by assumption)
      · exact ih _ w h

theorem argmax_foldl_const {f : List Slot → ℚ} (l : List (List Slot)) (b : Finset Slot × ℚ)
    (h : ∀ w ∈ l, f w ≤ b.2) : l.foldl (argmaxStep f) b = b := by
  induction l with
  | nil => rfl
  | cons x xs ih =>
      have hx : ¬ b.2 < f x := not_lt.mpr (h x (List.mem_cons_self x xs))
      have hstep : argmaxStep f b x = b := by unfold argmaxStep; simp [hx]
      rw [List.foldl_cons, hstep]
      exact ih (fun w hw => h w (List.mem_cons_of_mem x hw))

theorem argmax_foldl_provenance {f : List Slot → ℚ} (l : List (List Slot))
    (b : Finset Slot × ℚ) :
    l.foldl (argmaxStep f) b = b ∨
      ∃ w ∈ l, l.foldl (argmaxStep f) b = (w.toFinset, f w) ∧ b.2 < f w := by
  induction l generalizing b with
  | nil => exact Or.inl rfl
  | cons x xs ih =>
      by_cases hx : b.2 < f x
      · have hstep : argmaxStep f b x = (x.toFinset, f x) := by unfold argmaxStep; simp [hx]
        rw [List.foldl_cons, hstep]
        rcases ih (x.toFinset, f x) with h | ⟨w, hw, hres, hlt⟩
        · exact Or.inr ⟨x, List.mem_cons_self x xs, h, hx⟩
        · exact Or.inr ⟨w, List.mem_cons_of_mem x hw, hres, lt_trans hx hlt⟩
      · have hstep : argmaxStep f b x = b := by unfold argmaxStep; simp [hx]
        rw [List.foldl_cons, hstep]
        rcases ih b with h | ⟨w, hw, hres, hlt⟩
        · exact Or.inl h
        · exact Or.inr ⟨w, List.mem_cons_of_mem x hw, hres, hlt⟩

theorem argmax_foldl_first_max {f : List Slot → ℚ} (l : List (List Slot))
    (b : Finset Slot × ℚ) (h : ∃ w ∈ l, b.2 < f w) :
    ∃ l1 w l2, l = l1 ++ w :: l2 ∧ l.foldl (argmaxStep f) b = (w.toFinset, f w) ∧
      b.2 < f w ∧ (∀ u ∈ l1, f u < f w) ∧ (∀ u ∈ l2, f u ≤ f w) := by
  induction l generalizing b with
  | nil => obtain ⟨w, hw, _⟩ := h; cases hw
  | cons x xs ih =>
      by_cases hx : b.2 < f x
      · have hstep : argmaxStep f b x = (x.toFinset, f x) := by unfold argmaxStep; simp [hx]
        by_cases hxs : ∃ u ∈ xs, f x < f u
        · obtain ⟨l1, w, l2, hsplit, hres, hlt, hbefore, hafter⟩ :=
            ih (x.toFinset, f x) (by simpa using hxs)
          refine ⟨x :: l1, w, l2, by rw [hsplit]; rfl, ?_, lt_trans hx hlt, ?_, hafter⟩
          · rw [List.foldl_cons, hstep]; exact hres
          · intro u hu
            rcases List.mem_cons.mp hu with h' | h'
            · subst h'; exact hlt
            · exact hbefore u h'
        · push_neg at hxs
          refine ⟨[], x, xs, rfl, ?_, hx, ?_, hxs⟩
          · rw [List.foldl_cons, hstep]
            exact argmax_foldl_const xs _ (fun w hw => hxs w hw)
          · intro u hu; cases hu
      · have hstep : argmaxStep f b x = b := by unfold argmaxStep; simp [hx]
        have hxs : ∃ u ∈ xs, b.2 < f u := by
          obtain ⟨w, hw, hbw⟩ := h
          rcases List.mem_cons.mp hw with h' | h'
          · subst h'; exact absurd hbw hx
          · exact ⟨w, h', hbw⟩
        obtain ⟨l1, w, l2, hsplit, hres, hlt, hbefore, hafter⟩ := ih b hxs
        refine ⟨x :: l1, w, l2, by rw [hsplit]; rfl, ?_, hlt, ?_, hafter⟩
        · rw [List.foldl_cons, hstep]; exact hres
        · intro u hu
          rcases List.mem_cons.mp hu with h' | h'
          · subst h'; exact lt_of_le_of_lt (not_lt.mp hx) hlt
          · exact hbefore u h'

theorem argmax_foldl_zero_provenance {f : List Slot → ℚ} (l : List (List Slot)) :
    l.foldl (argmaxStep f) (∅, 0) = ((∅ : Finset Slot), (0 : ℚ)) ∨
      ∃ w ∈ l, l.foldl (argmaxStep f) (∅, 0) = (w.toFinset, f w) ∧ (0 : ℚ) < f w :=
  argmax_foldl_provenance l (∅, 0)

/-! ### Structure of `groupByCpu` -/

/-- First-appearance deduplication of a key list (the key order a Python
dictionary built by `setdefault` exhibits). -/
def fadedup : List Int → List Int
  | [] => []
  | x :: xs => x :: (fadedup xs).filter (fun y => y ≠ x)

theorem mem_fadedup {c : Int} : ∀ {xs : List Int}, c ∈ fadedup xs ↔ c ∈ xs := by
  intro xs
  induction xs with
  | nil => simp [fadedup]
  | cons x xs ih =>
      simp only [fadedup, List.mem_cons, List.mem_filter, List.mem_cons, decide_eq_true_eq,
        ih] at *
      by_cases h : c = x <;> simp [h, ih]

theorem fadedup_sublist : ∀ (xs : List Int), (fadedup xs).Sublist xs := by
  intro xs
  induction xs with
  | nil => exact List.Sublist.refl _
  | cons x xs ih =>
      exact List.Sublist.cons₂ x (List.Sublist.trans (List.filter_sublist _) ih)

theorem fadedup_nodup : ∀ (xs : List Int), (fadedup xs).Nodup := by
  intro xs
  induction xs with
  | nil => exact List.nodup_nil
  | cons x xs ih =>
      refine List.Nodup.cons ?_ (List.Nodup.filter _ ih)
      intro hmem
      have := (List.mem_filter.mp hmem).2
      simp at this

theorem fadedup_append_singleton (xs : List Int) (x : Int) :
    fadedup (xs ++ [x]) = if x ∈ xs then fadedup xs else fadedup xs ++ [x] := by
  induction xs with
  | nil => simp [fadedup]
  | cons y ys ih =>
      rw [List.cons_append]
      simp only [fadedup]
      rw [ih]
      by_cases hx : x ∈ ys
      · rw [if_pos hx, if_pos (List.mem_cons_of_mem y hx)]
      · rw [if_neg hx]
        by_cases hxy : x = y
        · subst hxy
          rw [if_pos (List.mem_cons_self x ys), List.filter_append]
          simp
        · rw [if_neg (by simp [hxy, hx]), List.filter_append]
          simp [hxy]

/-- The characterization target for `groupByCpu`: keys in first-appearance
order, each group the subsequence of slots with that `cpu_id`. -/
def groupsOf (l : List Slot) : List (Int × List Slot) :=
  (fadedup (l.map (fun s => s.cpu_id))).map (fun c => (c, l.filter (fun s => s.cpu_id = c)))

theorem alookup_keyed_map {β : Type} (f : Int → β) (c : Int) :
    ∀ (ks : List Int),
      alookup c (ks.map (fun k => (k, f k))) = if c ∈ ks then some (f c) else none := by
  intro ks
  induction ks with
  | nil => simp [alookup]
  | cons k ks ih =>
      simp only [List.map_cons, alookup, List.mem_cons]
      by_cases h : k = c
      · subst h; simp
      · simp [h, ih, Ne.symm h]

theorem addToGroup_groupsOf (p : List Slot) (s : Slot) :
    addToGroup (groupsOf p) s = groupsOf (p ++ [s]) := by
  unfold addToGroup groupsOf
  rw [alookup_keyed_map]
  by_cases hmem : s.cpu_id ∈ fadedup (p.map (fun t => t.cpu_id))
  · have hm : s.cpu_id ∈ p.map (fun t => t.cpu_id) := mem_fadedup.mp hmem
    have hkeys : fadedup ((p ++ [s]).map (fun t => t.cpu_id))
        = fadedup (p.map (fun t => t.cpu_id)) := by
      rw [List.map_append, List.map_singleton, fadedup_append_singleton, if_pos hm]
    rw [if_pos (by rw [if_pos hmem]; rfl), hkeys, List.map_map]
    apply List.map_congr_left
    intro c hc
    simp only [Function.comp_apply]
    by_cases hcs : c = s.cpu_id
    · subst hcs
      simp [List.filter_append]
    · have hsc : s.cpu_id ≠ c := fun h => hcs h.symm
      simp [List.filter_append, hcs, hsc]
  · have hnotp : s.cpu_id ∉ p.map (fun t => t.cpu_id) := fun h => hmem (mem_fadedup.mpr h)
    have hkeys : fadedup ((p ++ [s]).map (fun t => t.cpu_id))
        = fadedup (p.map (fun t => t.cpu_id)) ++ [s.cpu_id] := by
      rw [List.map_append, List.map_singleton, fadedup_append_singleton, if_neg hnotp]
    rw [if_neg (by rw [if_neg hmem]; simp), hkeys, List.map_append]
    congr 1
    · apply List.map_congr_left
      intro c hc
      have hcp : c ∈ p.map (fun t => t.cpu_id) := mem_fadedup.mp hc
      have hsc : s.cpu_id ≠ c := fun h => hnotp (h ▸ hcp)
      simp [List.filter_append, hsc]
    · have hnil : p.filter (fun t => t.cpu_id = s.cpu_id) = [] := by
        rw [List.filter_eq_nil_iff]
        intro t ht hts
        exact hnotp (List.mem_map.mpr ⟨t, ht, by simpa using hts⟩)
      simp [List.filter_append, hnil]

theorem groupByCpu_eq_groupsOf (l : List Slot) : groupByCpu l = groupsOf l := by
  suffices h : ∀ (l p : List Slot), l.foldl addToGroup (groupsOf p) = groupsOf (p ++ l) by
    have := h l []
    simpa [groupByCpu, groupsOf, fadedup] using this
  intro l
  induction l with
  | nil => intro p; simp
  | cons x xs ih =>
      intro p
      rw [List.foldl_cons, addToGroup_groupsOf, ih]
      simp

/-! ### Sorting and consecutive time runs -/

instance : IsTotal Slot (fun s t => s.get_time_index ≤ t.get_time_index) :=
  ⟨fun a b => le_total a.get_time_index b.get_time_index⟩

instance : IsTrans Slot (fun s t => s.get_time_index ≤ t.get_time_index) :=
  ⟨fun _ _ _ hab hbc => le_trans hab hbc⟩

theorem sortByTime_perm (l : List Slot) : (sortByTime l).Perm l :=
  List.perm_insertionSort _ l

theorem sortByTime_sorted (l : List Slot) :
    (sortByTime l).Pairwise (fun s t => s.get_time_index ≤ t.get_time_index) :=
  List.sorted_insertionSort _ l

/-- Pairwise-distinct time indices within a list of slots. -/
def TimesDistinct (l : List Slot) : Prop :=
  l.Pairwise (fun s t => s.get_time_index ≠ t.get_time_index)

theorem sortByTime_strict (l : List Slot) (h : TimesDistinct l) :
    (sortByTime l).Pairwise (fun s t => s.get_time_index < t.get_time_index) := by
  have hne : TimesDistinct (sortByTime l) := by
    refine (List.Perm.pairwise_iff ?_ (sortByTime_perm l)).mpr h
    intro x y hxy
    exact hxy.symm
  have := (sortByTime_sorted l).and hne
  exact this.imp (fun hp => lt_of_le_of_ne hp.1 hp.2)

/-- Executable test that a list of integers is a consecutive run starting
after `t`. -/
def consecFrom : Int → List Int → Bool
  | _, [] => true
  | t, u :: us => decide (u = t + 1) && consecFrom u us

/-- Executable test that a list of integers is a run of consecutive values. -/
def isConsecList : List Int → Bool
  | [] => true
  | t :: us => consecFrom t us

theorem consecFrom_iff_get (t : Int) (us : List Int) :
    consecFrom t us = true ↔ ∀ i, i < us.length → tget us i = t + 1 + i := by
  induction us generalizing t with
  | nil => simp [consecFrom]
  | cons u us ih =>
      simp only [consecFrom, Bool.and_eq_true, decide_eq_true_eq, ih]
      constructor
      · rintro ⟨rfl, hrec⟩ i hi
        cases i with
        | zero => simp [tget]
        | succ j =>
            have hj : j < us.length := by simpa using hi
            have := hrec j hj
            simp only [tget] at this ⊢
            rw [List.getD_cons_succ]
            rw [this]
            push_cast
            ring
      · intro h
        refine ⟨by simpa [tget] using h 0 (by simp), ?_⟩
        intro i hi
        have := h (i + 1) (by simpa using hi)
        simp only [tget, List.getD_cons_succ] at this ⊢
        have h0 := h 0 (by simp)
        simp only [tget, List.getD_cons_zero] at h0
        rw [this, h0]
        push_cast
        ring

theorem isConsecList_iff_get (ts : List Int) :
    isConsecList ts = true ↔ ∀ i, i < ts.length → tget ts i = tget ts 0 + i := by
  cases ts with
  | nil => simp [isConsecList]
  | cons t us =>
      simp only [isConsecList, consecFrom_iff_get]
      constructor
      · intro h i hi
        cases i with
        | zero => simp
        | succ j =>
            have hj : j < us.length := by simpa using hi
            have := h j hj
            simp only [tget, List.getD_cons_succ, List.getD_cons_zero] at *
            rw [this]
            push_cast
            ring
      · intro h i hi
        have := h (i + 1) (by simpa using hi)
        simp only [tget, List.getD_cons_succ, List.getD_cons_zero] at *
        rw [this]
        push_cast
        ring

theorem tget_eq_getElem (l : List Int) (i : Nat) (h : i < l.length) : tget l i = l[i] := by
  simp [tget, List.getD_eq_getElem?_getD, List.getElem?_eq_getElem h]

theorem strict_tget_lt (l : List Int) (h : l.Pairwise (· < ·)) {i j : Nat}
    (hij : i < j) (hj : j < l.length) : tget l i < tget l j := by
  rw [tget_eq_getElem l i (lt_trans hij hj), tget_eq_getElem l j hj]
  exact List.pairwise_iff_getElem.mp h i j (lt_trans hij hj) hj hij

theorem strict_gap (l : List Int) (h : l.Pairwise (· < ·)) :
    ∀ d i, i + d < l.length → tget l i + (d : Int) ≤ tget l (i + d) := by
  intro d
  induction d with
  | zero => intro i _; simp
  | succ e ih =>
      intro i hi
      have h1 : tget l i + (e : Int) ≤ tget l (i + e) := ih i (by omega)
      have h2 : tget l (i + e) < tget l (i + e + 1) :=
        strict_tget_lt l h (by omega) (by omega)
      have : i + (e + 1) = i + e + 1 := by omega
      rw [this]
      push_cast
      omega

theorem span_to_consec (l : List Int) (h : l.Pairwise (· < ·)) (k : Nat)
    (hk : l.length = k) (hk1 : 1 ≤ k)
    (hspan : tget l (k - 1) - tget l 0 = (k : Int) - 1) : isConsecList l = true := by
  rw [isConsecList_iff_get]
  intro i hi
  have hlow : tget l 0 + (i : Int) ≤ tget l i := by
    have := strict_gap l h i 0 (by omega)
    simpa using this
  have hup : tget l i + ((k - 1 - i : Nat) : Int) ≤ tget l (k - 1) := by
    have := strict_gap l h (k - 1 - i) i (by omega)
    have heq : i + (k - 1 - i) = k - 1 := by omega
    rwa [heq] at this
  have hcast : ((k - 1 - i : Nat) : Int) = (k : Int) - 1 - i := by
    have : i ≤ k - 1 := by omega
    omega
  omega

theorem consec_to_span (l : List Int) (k : Nat) (hk : l.length = k) (hk1 : 1 ≤ k)
    (h : isConsecList l = true) : tget l (k - 1) - tget l 0 = (k : Int) - 1 := by
  rw [isConsecList_iff_get] at h
  have := h (k - 1) (by omega)
  rw [this]
  have : ((k - 1 : Nat) : Int) = (k : Int) - 1 := by omega
  omega

theorem consec_pairwise_lt (l : List Int) (h : isConsecList l = true) :
    l.Pairwise (· < ·) := by
  rw [isConsecList_iff_get] at h
  rw [List.pairwise_iff_getElem]
  intro i j hi hj hij
  have h1 := h i (by omega)
  have h2 := h j hj
  rw [tget_eq_getElem l i (by omega)] at h1
  rw [tget_eq_getElem l j hj] at h2
  omega

theorem consec_mem_bounds (l : List Int) (h : isConsecList l = true) {x : Int}
    (hx : x ∈ l) : tget l 0 ≤ x ∧ x ≤ tget l 0 + l.length - 1 := by
  rw [isConsecList_iff_get] at h
  obtain ⟨i, hi, rfl⟩ := List.mem_iff_getElem.mp hx
  rw [← tget_eq_getElem l i hi, h i hi]
  omega

theorem consec_bounds_mem (l : List Int) (h : isConsecList l = true) {x : Int}
    (h1 : tget l 0 ≤ x) (h2 : x ≤ tget l 0 + l.length - 1) : x ∈ l := by
  rw [isConsecList_iff_get] at h
  have hlen : 1 ≤ l.length := by
    rcases l with _ | ⟨t, us⟩
    · simp [tget] at h1 h2; omega
    · simp
  have hi : (x - tget l 0).toNat < l.length := by omega
  have hx : tget l (x - tget l 0).toNat = x := by
    rw [h _ hi]
    omega
  rw [← hx, tget_eq_getElem l _ hi]
  exact List.getElem_mem hi

/-! ### Window membership and infix structure -/

theorem mem_windowList {k : Nat} {g w : List Slot} :
    w ∈ windowList k g ↔ ∃ i, i + k ≤ g.length ∧ w = (g.drop i).take k := by
  unfold windowList
  by_cases h : g.length < k
  · simp only [if_pos h, List.not_mem_nil, false_iff, not_exists, not_and]
    intro i hi
    omega
  · simp only [if_neg h, List.mem_map, List.mem_range]
    constructor
    · rintro ⟨i, hi, rfl⟩
      exact ⟨i, by omega, rfl⟩
    · rintro ⟨i, hi, rfl⟩
      exact ⟨i, by omega, rfl⟩

theorem window_length {k i : Nat} {g : List Slot} (h : i + k ≤ g.length) :
    ((g.drop i).take k).length = k := by
  simp only [List.length_take, List.length_drop]
  omega

theorem window_sublist (k i : Nat) (g : List Slot) : ((g.drop i).take k).Sublist g :=
  (List.take_sublist _ _).trans (List.drop_sublist _ _)

theorem window_infix (k i : Nat) (g : List Slot) :
    ∃ p q, g = p ++ (g.drop i).take k ++ q := by
  refine ⟨g.take i, (g.drop i).drop k, ?_⟩
  rw [List.append_assoc, List.take_append_drop, List.take_append_drop]

theorem infix_mem_windowList {k : Nat} {g w p q : List Slot} (hsplit : g = p ++ w ++ q)
    (hlen : w.length = k) : w ∈ windowList k g := by
  rw [mem_windowList]
  refine ⟨p.length, ?_, ?_⟩
  · subst hsplit
    simp only [List.length_append]
    omega
  · subst hsplit
    rw [List.append_assoc, List.drop_left, List.take_left' hlen]

theorem mem_filter_prefix_le (hi : Int) (l : List Slot)
    (hl : l.Pairwise (fun s t => s.get_time_index < t.get_time_index)) :
    ∃ q, l = l.filter (fun s => decide (s.get_time_index ≤ hi)) ++ q := by
  induction l with
  | nil => exact ⟨[], rfl⟩
  | cons u l ih =>
      by_cases hu : u.get_time_index ≤ hi
      · obtain ⟨q, hq⟩ := ih (List.Pairwise.sublist (List.sublist_cons_self u l) hl)
        refine ⟨q, ?_⟩
        rw [List.filter_cons, if_pos (by simpa using hu), List.cons_append, ← hq]
      · refine ⟨u :: l, ?_⟩
        have h1 : List.filter (fun s => decide (s.get_time_index ≤ hi)) l = [] := by
          rw [List.filter_eq_nil_iff]
          intro t ht
          have : u.get_time_index < t.get_time_index :=
            (List.pairwise_cons.mp hl).1 t ht
          simp only [decide_eq_true_eq]
          omega
        rw [List.filter_cons, if_neg (by simpa using hu), h1, List.nil_append]

theorem filter_interval_infix (lo hi : Int) (l : List Slot)
    (hl : l.Pairwise (fun s t => s.get_time_index < t.get_time_index)) :
    ∃ p q,
      l = p ++ l.filter (fun s => decide (lo ≤ s.get_time_index ∧ s.get_time_index ≤ hi)) ++ q := by
  induction l with
  | nil => exact ⟨[], [], rfl⟩
  | cons s l ih =>
      have hl' : l.Pairwise (fun s t => s.get_time_index < t.get_time_index) :=
        List.Pairwise.sublist (List.sublist_cons_self s l) hl
      by_cases hs : lo ≤ s.get_time_index ∧ s.get_time_index ≤ hi
      · obtain ⟨q, hq⟩ := mem_filter_prefix_le hi l hl'
        refine ⟨[], q, ?_⟩
        rw [List.filter_cons, if_pos (by simpa using hs)]
        have hcong : l.filter (fun t => decide (lo ≤ t.get_time_index ∧ t.get_time_index ≤ hi))
            = l.filter (fun t => decide (t.get_time_index ≤ hi)) := by
          apply List.filter_congr
          intro t ht
          have : s.get_time_index < t.get_time_index :=
            (List.pairwise_cons.mp hl).1 t ht
          simp only [decide_eq_true_eq, decide_eq_decide]
          constructor
          · intro h'; exact h'.2
          · intro h'; exact ⟨by omega, h'⟩
        rw [hcong, List.nil_append, List.cons_append, ← hq]
      · push_neg at hs
        by_cases hlo : lo ≤ s.get_time_index
        · refine ⟨[], s :: l, ?_⟩
          have hhi := hs hlo
          have h1 : List.filter
              (fun t => decide (lo ≤ t.get_time_index ∧ t.get_time_index ≤ hi)) (s :: l) = [] := by
            rw [List.filter_eq_nil_iff]
            intro t ht
            rcases List.mem_cons.mp ht with h' | h'
            · subst h'
              simp only [decide_eq_true_eq, not_and]
              intro
              omega
            · have : s.get_time_index < t.get_time_index :=
                (List.pairwise_cons.mp hl).1 t h'
              simp only [decide_eq_true_eq, not_and]
              intro
              omega
          rw [h1, List.nil_append, List.nil_append]
        · push_neg at hlo
          obtain ⟨p, q, hpq⟩ := ih hl'
          refine ⟨s :: p, q, ?_⟩
          rw [List.filter_cons, if_neg (by simp only [decide_eq_true_eq, not_and]; intro h'; omega)]
          rw [List.cons_append, List.cons_append, ← hpq]

/-! ### Semantic feasible windows -/

/-- Specification-side notion of a feasible window for an agent (§4.2): a
bundle of exactly `required_slots` catalog slots, all before the deadline and
on a single resource, whose time indices are `required_slots` distinct
consecutive values. -/
def FeasibleWindow (a : Agent) (all_slots : List Slot) (b : Finset Slot) : Prop :=
  b.card = a.required_slots ∧
  (∀ s ∈ b, s ∈ all_slots) ∧
  (∀ s ∈ b, s.get_time_index < a.deadline_slot_id) ∧
  (∃ c : Int, ∀ s ∈ b, s.cpu_id = c) ∧
  (b.image Slot.get_time_index).card = a.required_slots ∧
  isConsecList ((b.image Slot.get_time_index).sort (· ≤ ·)) = true

/-- Well-formedness of a slot catalog, as all catalogs the repository builds
satisfy: slot ids are distinct, and no two slots of one resource share a time
index. -/
def WellFormedCatalog (slots : List Slot) : Prop :=
  (slots.map (fun s => s.slot_id)).Nodup ∧
  slots.Pairwise (fun s t => s.cpu_id = t.cpu_id → s.get_time_index ≠ t.get_time_index)

theorem sorted_strict_toFinset_sort (ts : List Int) (h : ts.Pairwise (· < ·)) :
    ts.toFinset.sort (· ≤ ·) = ts := by
  have hnd : ts.Nodup := h.imp (fun h' => ne_of_lt h')
  have hperm : (ts.toFinset.sort (· ≤ ·)).Perm ts :=
    (Finset.sort_perm_toList _ _).trans (List.toFinset_toList hnd)
  exact List.eq_of_perm_of_sorted hperm (Finset.sort_sorted _ _) (h.imp (fun h' => le_of_lt h'))

theorem list_toFinset_image (f : Slot → Int) (w : List Slot) :
    w.toFinset.image f = (w.map f).toFinset := by
  ext x
  simp [List.mem_map]

/-- A CPU group of the valid slots has pairwise-distinct time indices on a
well-formed catalog. -/
theorem group_times_distinct {all_slots : List Slot} (hwf : WellFormedCatalog all_slots)
    (a : Agent) (c : Int) :
    TimesDistinct ((a.get_valid_slots all_slots).filter (fun s => s.cpu_id = c)) := by
  have hsub : ((a.get_valid_slots all_slots).filter (fun s => s.cpu_id = c)).Sublist
      all_slots :=
    (List.filter_sublist _).trans (List.filter_sublist _)
  have hpw := hwf.2.sublist hsub
  refine List.Pairwise.imp_of_mem ?_ hpw
  intro s t hs ht h
  apply h
  have hs' := (List.mem_filter.mp hs).2
  have ht' := (List.mem_filter.mp ht).2
  simp only [decide_eq_true_eq] at hs' ht'
  rw [hs', ht']

/-- Facts about one accepted window of the scan: it is a contiguous slice of
the sorted group, of full length, strictly time-sorted, and span-accepted. -/
theorem codeWindow_shape {a : Agent} {all_slots : List Slot}
    (hwf : WellFormedCatalog all_slots) {c : Int} {w : List Slot}
    (hgrp : w ∈ windowList a.required_slots
      (sortByTime ((a.get_valid_slots all_slots).filter (fun s => s.cpu_id = c)))) :
    w.length = a.required_slots ∧
    w.Pairwise (fun s t => s.get_time_index < t.get_time_index) ∧
    (∀ s ∈ w, s ∈ (a.get_valid_slots all_slots).filter (fun s => s.cpu_id = c)) := by
  set g := (a.get_valid_slots all_slots).filter (fun s => s.cpu_id = c) with hg
  have hstrict : (sortByTime g).Pairwise (fun s t => s.get_time_index < t.get_time_index) :=
    sortByTime_strict g (group_times_distinct hwf a c)
  obtain ⟨i, hik, rfl⟩ := mem_windowList.mp hgrp
  refine ⟨window_length hik, ?_, ?_⟩
  · exact hstrict.sublist (window_sublist _ _ _)
  · intro s hs
    have : s ∈ sortByTime g := (window_sublist _ _ _).mem hs
    exact (sortByTime_perm g).mem_iff.mp this

/-- Soundness of the scan: every span-accepted window of a CPU group is a
semantic feasible window. -/
theorem codeWindow_sound {a : Agent} {all_slots : List Slot}
    (hwf : WellFormedCatalog all_slots) (hk : 1 ≤ a.required_slots) {c : Int}
    {w : List Slot}
    (hgrp : w ∈ windowList a.required_slots
      (sortByTime ((a.get_valid_slots all_slots).filter (fun s => s.cpu_id = c))))
    (hspan : spanOk a.required_slots w = true) :
    FeasibleWindow a all_slots w.toFinset ∧
    w.toFinset.card = a.required_slots ∧
    (w.map Slot.get_time_index).toFinset.sort (· ≤ ·) = w.map Slot.get_time_index ∧
    isConsecList (w.map Slot.get_time_index) = true := by
  obtain ⟨hlen, hstrict, hmem⟩ := codeWindow_shape hwf hgrp
  have htimes : (w.map Slot.get_time_index).Pairwise (· < ·) := by
    rw [List.pairwise_map]
    exact hstrict
  have hnd : w.Nodup := hstrict.imp (fun h' => fun he => absurd (congrArg Slot.get_time_index he)
    (ne_of_lt h'))
  have htlen : (w.map Slot.get_time_index).length = a.required_slots := by
    rw [List.length_map, hlen]
  have hconsec : isConsecList (w.map Slot.get_time_index) = true := by
    refine span_to_consec _ htimes a.required_slots htlen hk ?_
    unfold spanOk at hspan
    simpa using hspan
  have htnd : (w.map Slot.get_time_index).Nodup := htimes.imp (fun h' => ne_of_lt h')
  have hsort : (w.map Slot.get_time_index).toFinset.sort (· ≤ ·) = w.map Slot.get_time_index :=
    sorted_strict_toFinset_sort _ htimes
  have hcard : w.toFinset.card = a.required_slots := by
    rw [List.toFinset_card_of_nodup hnd, hlen]
  refine ⟨⟨hcard, ?_, ?_, ⟨c, ?_⟩, ?_, ?_⟩, hcard, hsort, hconsec⟩
  · intro s hs
    have := hmem s (List.mem_toFinset.mp hs)
    have := (List.mem_filter.mp this).1
    exact (List.mem_filter.mp this).1
  · intro s hs
    have := hmem s (List.mem_toFinset.mp hs)
    have := (List.mem_filter.mp this).1
    have := (List.mem_filter.mp this).2
    simpa using this
  · intro s hs
    have := hmem s (List.mem_toFinset.mp hs)
    have := (List.mem_filter.mp this).2
    simpa using this
  · rw [list_toFinset_image, List.toFinset_card_of_nodup htnd, htlen]
  · rw [list_toFinset_image, hsort]
    exact hconsec

theorem mem_codeWindows {a : Agent} {all_slots : List Slot} {w : List Slot} :
    w ∈ codeWindows a all_slots ↔
      ∃ c ∈ fadedup ((a.get_valid_slots all_slots).map (fun s => s.cpu_id)),
        w ∈ windowList a.required_slots
            (sortByTime ((a.get_valid_slots all_slots).filter (fun s => s.cpu_id = c))) ∧
        spanOk a.required_slots w = true := by
  unfold codeWindows
  rw [groupByCpu_eq_groupsOf]
  unfold groupsOf
  rw [List.map_map]
  simp only [List.mem_flatten, List.mem_map, Function.comp_apply, List.mem_filter]
  constructor
  · rintro ⟨L, ⟨c, hc, rfl⟩, hwL⟩
    obtain ⟨h1, h2⟩ := List.mem_filter.mp hwL
    exact ⟨c, hc, h1, h2⟩
  · rintro ⟨c, hc, h1, h2⟩
    exact ⟨_, ⟨c, hc, rfl⟩, List.mem_filter.mpr ⟨h1, h2⟩⟩

/-- Completeness of the scan: every semantic feasible window appears, span
accepted, in its CPU group's window list. -/
theorem codeWindow_complete {a : Agent} {all_slots : List Slot}
    (hwf : WellFormedCatalog all_slots) (hk : 1 ≤ a.required_slots) {b : Finset Slot}
    (hb : FeasibleWindow a all_slots b) :
    ∃ c w, c ∈ fadedup ((a.get_valid_slots all_slots).map (fun s => s.cpu_id)) ∧
      w ∈ windowList a.required_slots
          (sortByTime ((a.get_valid_slots all_slots).filter (fun s => s.cpu_id = c))) ∧
      spanOk a.required_slots w = true ∧ w.toFinset = b := by
  obtain ⟨hcard, hcat, hdl, ⟨c, hcpu⟩, himgcard, hconsec⟩ := hb
  have hbne : b.Nonempty := Finset.card_pos.mp (by omega)
  obtain ⟨s0, hs0⟩ := hbne
  set valid := a.get_valid_slots all_slots with hvalid
  have hbv : ∀ s ∈ b, s ∈ valid := by
    intro s hs
    rw [hvalid]
    unfold Agent.get_valid_slots
    exact List.mem_filter.mpr ⟨hcat s hs, by simpa using hdl s hs⟩
  set g := valid.filter (fun s => s.cpu_id = c) with hg
  have hbg : ∀ s ∈ b, s ∈ g := by
    intro s hs
    exact List.mem_filter.mpr ⟨hbv s hs, by simpa using hcpu s hs⟩
  have hcmem : c ∈ fadedup (valid.map (fun s => s.cpu_id)) :=
    mem_fadedup.mpr (List.mem_map.mpr ⟨s0, hbv s0 hs0, hcpu s0 hs0⟩)
  set sc := sortByTime g with hsc
  have hstrict : sc.Pairwise (fun s t => s.get_time_index < t.get_time_index) :=
    sortByTime_strict g (group_times_distinct hwf a c)
  have hscnd : sc.Nodup := hstrict.imp
    (fun h' he => absurd (congrArg Slot.get_time_index he) (ne_of_lt h'))
  have hbsc : ∀ s ∈ b, s ∈ sc := fun s hs => (sortByTime_perm g).mem_iff.mpr (hbg s hs)
  set ts := (b.image Slot.get_time_index).sort (· ≤ ·) with hts
  have htslen : ts.length = a.required_slots := by
    rw [hts, Finset.length_sort, himgcard]
  set lo := tget ts 0 with hlo
  set hi := lo + (a.required_slots : Int) - 1 with hhi
  have hmem_iff : ∀ s ∈ sc, (s ∈ b ↔ lo ≤ s.get_time_index ∧ s.get_time_index ≤ hi) := by
    intro s hsmem
    constructor
    · intro hsb
      have : s.get_time_index ∈ ts := by
        rw [hts]
        rw [Finset.mem_sort]
        exact Finset.mem_image_of_mem _ hsb
      have := consec_mem_bounds ts hconsec this
      rw [htslen] at this
      constructor
      · exact this.1
      · rw [hhi]
        omega
    · rintro ⟨h1, h2⟩
      have hx : s.get_time_index ∈ ts := by
        refine consec_bounds_mem ts hconsec h1 ?_
        rw [htslen, hhi] at *
        omega
      rw [hts, Finset.mem_sort] at hx
      obtain ⟨x, hxb, hxt⟩ := Finset.mem_image.mp hx
      have hxsc : x ∈ sc := hbsc x hxb
      by_cases hsx : s = x
      · rw [hsx]; exact hxb
      · exfalso
        have hdist : sc.Pairwise (fun s t => s.get_time_index ≠ t.get_time_index) :=
          hstrict.imp (fun h' => ne_of_lt h')
        have hsym : Symmetric (fun s t : Slot => s.get_time_index ≠ t.get_time_index) :=
          fun _ _ h' => h'.symm
        exact (hdist.forall hsym hsmem hxsc hsx) hxt.symm
  set w := sc.filter (fun s => decide (s ∈ b)) with hw
  have hweq : w = sc.filter
      (fun s => decide (lo ≤ s.get_time_index ∧ s.get_time_index ≤ hi)) := by
    rw [hw]
    apply List.filter_congr
    intro s hsmem
    simp only [decide_eq_decide]
    exact hmem_iff s hsmem
  have hwfin : w.toFinset = b := by
    ext x
    rw [hw]
    simp only [List.mem_toFinset, List.mem_filter, decide_eq_true_eq]
    constructor
    · rintro ⟨_, h2⟩; exact h2
    · intro hxb; exact ⟨hbsc x hxb, hxb⟩
  have hwnd : w.Nodup := hscnd.filter _
  have hwlen : w.length = a.required_slots := by
    have := List.toFinset_card_of_nodup hwnd
    rw [hwfin, hcard] at this
    omega
  obtain ⟨p, q, hpq⟩ := filter_interval_infix lo hi sc hstrict
  rw [← hweq] at hpq
  have hwmem : w ∈ windowList a.required_slots sc := infix_mem_windowList hpq hwlen
  have hwstrict : w.Pairwise (fun s t => s.get_time_index < t.get_time_index) :=
    hstrict.sublist (List.filter_sublist _)
  have htmap : (w.map Slot.get_time_index).Pairwise (· < ·) := by
    rw [List.pairwise_map]; exact hwstrict
  have htseq : w.map Slot.get_time_index = ts := by
    have h1 : (w.map Slot.get_time_index).toFinset = b.image Slot.get_time_index := by
      rw [← list_toFinset_image, hwfin]
    have h2 := sorted_strict_toFinset_sort _ htmap
    rw [h1] at h2
    rw [← h2, hts]
  have hspan : spanOk a.required_slots w = true := by
    unfold spanOk
    rw [htseq]
    simp only [decide_eq_true_eq]
    exact consec_to_span ts a.required_slots htslen hk hconsec
  exact ⟨c, w, hcmem, hwmem, hspan, hwfin⟩

/-! ### The scan order of the window enumeration -/

/-- CPU of the first slot of a window (0 for the empty window). -/
def headCpu : List Slot → Int
  | [] => 0
  | s :: _ => s.cpu_id

/-- Time index of the first slot of a window (0 for the empty window). -/
def headTime : List Slot → Int
  | [] => 0
  | s :: _ => s.get_time_index

/-- Strict scan order on windows: earlier resource id, or same resource and
earlier start time. -/
def windowLexLT (w1 w2 : List Slot) : Prop :=
  headCpu w1 < headCpu w2 ∨ (headCpu w1 = headCpu w2 ∧ headTime w1 < headTime w2)

/-- Resource id of a bundle, read off its slots (0 for the empty bundle). -/
def bundleCpu (b : Finset Slot) : Int :=
  tget ((b.image (fun s => s.cpu_id)).sort (· ≤ ·)) 0

/-- Earliest time index of a bundle (0 for the empty bundle). -/
def bundleStart (b : Finset Slot) : Int :=
  tget ((b.image Slot.get_time_index).sort (· ≤ ·)) 0

/-- Specification-side scan order on bundles: `b1` is found before `b2` when
scanning resources in ascending resource id and, within a resource, windows
in ascending start time. -/
def ScanEarlier (b1 b2 : Finset Slot) : Prop :=
  bundleCpu b1 < bundleCpu b2 ∨ (bundleCpu b1 = bundleCpu b2 ∧ bundleStart b1 < bundleStart b2)

theorem window_head {k i : Nat} {g : List Slot} (h : i + k ≤ g.length) (hk : 1 ≤ k) :
    ∃ rest, (g.drop i).take k = g.get (Fin.mk i (by omega)) :: rest := by
  rw [List.drop_eq_getElem_cons (by omega)]
  cases k with
  | zero => omega
  | succ kk => exact ⟨_, List.take_succ_cons⟩

theorem mem_windowList_head {a : Agent} {all_slots : List Slot} {c : Int} {w : List Slot}
    (hk : 1 ≤ a.required_slots)
    (hw : w ∈ windowList a.required_slots
      (sortByTime ((a.get_valid_slots all_slots).filter (fun s => s.cpu_id = c)))) :
    ∃ s rest, w = s :: rest ∧ s.cpu_id = c := by
  set sc := sortByTime ((a.get_valid_slots all_slots).filter (fun s => s.cpu_id = c)) with hsc
  obtain ⟨i, hik, rfl⟩ := mem_windowList.mp hw
  obtain ⟨rest, hrest⟩ := window_head hik hk
  refine ⟨_, rest, hrest, ?_⟩
  have hmem : sc.get (Fin.mk i (by omega)) ∈ sc := List.get_mem _ _ _
  have : sc.get (Fin.mk i (by omega)) ∈
      (a.get_valid_slots all_slots).filter (fun s => s.cpu_id = c) :=
    (sortByTime_perm _).mem_iff.mp hmem
  have := (List.mem_filter.mp this).2
  simpa using this

theorem windowList_pairwise_lex {a : Agent} {all_slots : List Slot}
    (hwf : WellFormedCatalog all_slots) (hk : 1 ≤ a.required_slots) (c : Int) :
    (windowList a.required_slots
      (sortByTime ((a.get_valid_slots all_slots).filter (fun s => s.cpu_id = c)))).Pairwise
      windowLexLT := by
  set g := (a.get_valid_slots all_slots).filter (fun s => s.cpu_id = c) with hg
  set sc := sortByTime g with hsc
  have hstrict : sc.Pairwise (fun s t => s.get_time_index < t.get_time_index) :=
    sortByTime_strict g (group_times_distinct hwf a c)
  unfold windowList
  by_cases hlen : sc.length < a.required_slots
  · simp [hlen]
  · rw [if_neg hlen]
    rw [List.pairwise_map]
    refine List.Pairwise.imp_of_mem ?_ (List.pairwise_lt_range _)
    intro i j hi hj hij
    rw [List.mem_range] at hi hj
    have hik : i + a.required_slots ≤ sc.length := by omega
    have hjk : j + a.required_slots ≤ sc.length := by omega
    obtain ⟨ri, hri⟩ := window_head hik hk
    obtain ⟨rj, hrj⟩ := window_head hjk hk
    rw [hri, hrj]
    right
    have hci : (sc.get (Fin.mk i (by omega))).cpu_id = c := by
      have hmem : sc.get (Fin.mk i (by omega)) ∈ sc := List.get_mem _ _ _
      have := (List.mem_filter.mp ((sortByTime_perm _).mem_iff.mp hmem)).2
      simpa using this
    have hcj : (sc.get (Fin.mk j (by omega))).cpu_id = c := by
      have hmem : sc.get (Fin.mk j (by omega)) ∈ sc := List.get_mem _ _ _
      have := (List.mem_filter.mp ((sortByTime_perm _).mem_iff.mp hmem)).2
      simpa using this
    constructor
    · show (sc.get (Fin.mk i (by omega))).cpu_id = (sc.get (Fin.mk j (by omega))).cpu_id
      rw [hci, hcj]
    · show (sc.get (Fin.mk i (by omega))).get_time_index
          < (sc.get (Fin.mk j (by omega))).get_time_index
      have := List.pairwise_iff_getElem.mp hstrict i j (by omega) (by omega) hij
      simpa [List.get_eq_getElem] using this

theorem codeWindows_pairwise_lex {a : Agent} {all_slots : List Slot}
    (hwf : WellFormedCatalog all_slots) (hk : 1 ≤ a.required_slots)
    (hcpu : (all_slots.map (fun s => s.cpu_id)).Pairwise (· ≤ ·)) :
    (codeWindows a all_slots).Pairwise windowLexLT := by
  unfold codeWindows
  rw [groupByCpu_eq_groupsOf]
  unfold groupsOf
  rw [List.map_map]
  rw [List.pairwise_flatten]
  constructor
  · intro l hl
    rw [List.mem_map] at hl
    obtain ⟨c, hc, rfl⟩ := hl
    exact (windowList_pairwise_lex hwf hk c).sublist (List.filter_sublist _)
  · rw [List.pairwise_map]
    have hks : ((a.get_valid_slots all_slots).map (fun s => s.cpu_id)).Pairwise (· ≤ ·) := by
      refine hcpu.sublist ?_
      exact List.Sublist.map _ (List.filter_sublist _)
    have hfa : (fadedup ((a.get_valid_slots all_slots).map (fun s => s.cpu_id))).Pairwise
        (· < ·) := by
      have h1 := hks.sublist (fadedup_sublist _)
      have h2 := fadedup_nodup ((a.get_valid_slots all_slots).map (fun s => s.cpu_id))
      exact (h1.and h2).imp (fun h' => lt_of_le_of_ne h'.1 h'.2)
    refine List.Pairwise.imp_of_mem ?_ hfa
    intro c1 c2 _ _ hlt w1 hw1 w2 hw2
    have hm1 := (List.mem_filter.mp hw1).1
    have hm2 := (List.mem_filter.mp hw2).1
    obtain ⟨s1, r1, rfl, hs1⟩ := mem_windowList_head hk hm1
    obtain ⟨s2, r2, rfl, hs2⟩ := mem_windowList_head hk hm2
    left
    show s1.cpu_id < s2.cpu_id
    rw [hs1, hs2]
    exact hlt

theorem feasible_in_codeWindows {a : Agent} {all_slots : List Slot}
    (hwf : WellFormedCatalog all_slots) (hk : 1 ≤ a.required_slots) {b : Finset Slot}
    (hb : FeasibleWindow a all_slots b) :
    ∃ w ∈ codeWindows a all_slots, w.toFinset = b := by
  obtain ⟨c, w, h1, h2, h3, h4⟩ := codeWindow_complete hwf hk hb
  exact ⟨w, mem_codeWindows.mpr ⟨c, h1, h2, h3⟩, h4⟩

theorem codeWindows_feasible {a : Agent} {all_slots : List Slot}
    (hwf : WellFormedCatalog all_slots) (hk : 1 ≤ a.required_slots) {w : List Slot}
    (hw : w ∈ codeWindows a all_slots) : FeasibleWindow a all_slots w.toFinset := by
  obtain ⟨c, _, h2, h3⟩ := mem_codeWindows.mp hw
  exact (codeWindow_sound hwf hk h2 h3).1

theorem codeWindow_bridge {a : Agent} {all_slots : List Slot}
    (hwf : WellFormedCatalog all_slots) (hk : 1 ≤ a.required_slots) {w : List Slot}
    (hw : w ∈ codeWindows a all_slots) :
    bundleCpu w.toFinset = headCpu w ∧ bundleStart w.toFinset = headTime w := by
  obtain ⟨c, hc, hmemw, hspan⟩ := mem_codeWindows.mp hw
  obtain ⟨_, hcard, hsort, _⟩ := codeWindow_sound hwf hk hmemw hspan
  obtain ⟨_, _, hshape⟩ := codeWindow_shape hwf hmemw
  obtain ⟨s, rest, heq, hs⟩ := mem_windowList_head hk hmemw
  constructor
  · have hcall : ∀ t ∈ w, t.cpu_id = c := by
      intro t ht
      have := (List.mem_filter.mp (hshape t ht)).2
      simpa using this
    have himg : w.toFinset.image (fun t => t.cpu_id) = {c} := by
      ext x
      simp only [Finset.mem_image, List.mem_toFinset, Finset.mem_singleton]
      constructor
      · rintro ⟨t, ht, rfl⟩; exact hcall t ht
      · intro hx
        refine ⟨s, ?_, ?_⟩
        · rw [heq]; exact List.mem_cons_self _ _
        · rw [hs, hx]
    unfold bundleCpu
    rw [himg, Finset.sort_singleton]
    rw [heq]
    unfold headCpu
    rw [← hs]
    simp [tget]
  · unfold bundleStart
    rw [list_toFinset_image, hsort, heq]
    unfold headTime
    simp [tget]

/-! ### Claim C2: local optimality and deterministic tie-breaking -/

/-- Claim C2: on a well-formed catalog (distinct slot ids, distinct times per
resource, resources listed in ascending id order, as every catalog the
repository builds) and for a positive required length, `find_best_bundle`
returns a surplus at least that of every feasible window, and — whenever some
feasible window has strictly positive surplus — the returned bundle is a
feasible window of maximal surplus that is found earliest in the scan order
(ascending resource id, then ascending start time): every other maximal
window lies strictly later in that order, because the strictly-greater
comparison keeps the earlier-found window on ties. -/
theorem find_best_bundle_local_optimality (a : Agent) (all_slots : List Slot)
    (prices : List (Int × ℚ)) (cur : Finset Slot)
    (hwf : WellFormedCatalog all_slots) (hk : 1 ≤ a.required_slots)
    (hcpu : (all_slots.map (fun s => s.cpu_id)).Pairwise (· ≤ ·)) :
    (∀ b, FeasibleWindow a all_slots b →
      a.surplus b prices ≤ (a.find_best_bundle all_slots prices cur).2) ∧
    ((∃ b, FeasibleWindow a all_slots b ∧ 0 < a.surplus b prices) →
      FeasibleWindow a all_slots (a.find_best_bundle all_slots prices cur).1 ∧
      a.surplus (a.find_best_bundle all_slots prices cur).1 prices
        = (a.find_best_bundle all_slots prices cur).2 ∧
      ∀ b, FeasibleWindow a all_slots b →
        a.surplus b prices = (a.find_best_bundle all_slots prices cur).2 →
        b ≠ (a.find_best_bundle all_slots prices cur).1 →
        ScanEarlier (a.find_best_bundle all_slots prices cur).1 b) := by
  have hfb := find_best_bundle_eq a all_slots prices cur
  constructor
  · intro b hb
    obtain ⟨w, hwmem, hwfin⟩ := feasible_in_codeWindows hwf hk hb
    have hle0 := argmax_foldl_mem_le (f := fun w => a.surplus w.toFinset prices)
      (codeWindows a all_slots) (∅, 0) w hwmem
    have hle : a.surplus b prices ≤ ((codeWindows a all_slots).foldl
        (argmaxStep (fun w => a.surplus w.toFinset prices)) (∅, 0)).2 := by
      simpa [hwfin] using hle0
    rw [hfb]
    split
    · next hneg =>
        have : a.surplus b prices < 0 := lt_of_le_of_lt hle hneg
        exact le_of_lt this
    · exact hle
  · rintro ⟨b0, hb0, hpos⟩
    obtain ⟨w0, hw0mem, hw0fin⟩ := feasible_in_codeWindows hwf hk hb0
    have hex : ∃ w ∈ codeWindows a all_slots,
        ((∅ : Finset Slot), (0 : ℚ)).2 < a.surplus w.toFinset prices := by
      refine ⟨w0, hw0mem, ?_⟩
      rw [hw0fin]
      exact hpos
    obtain ⟨l1, wstar, l2, hsplit, hres, hlt0, hbefore, hafter⟩ :=
      argmax_foldl_first_max (f := fun w => a.surplus w.toFinset prices)
        (codeWindows a all_slots) (∅, 0) hex
    have hstar_mem : wstar ∈ codeWindows a all_slots := by
      rw [hsplit]
      exact List.mem_append.mpr (Or.inr (List.mem_cons_self _ _))
    have hnn : ¬ ((codeWindows a all_slots).foldl
        (argmaxStep (fun w => a.surplus w.toFinset prices)) (∅, 0)).2 < 0 := by
      rw [hres]
      simp only
      exact not_lt.mpr (le_of_lt hlt0)
    have hfind : a.find_best_bundle all_slots prices cur =
        (wstar.toFinset, a.surplus wstar.toFinset prices) := by
      rw [hfb, if_neg hnn, hres]
    refine ⟨?_, ?_, ?_⟩
    · rw [hfind]
      exact codeWindows_feasible hwf hk hstar_mem
    · rw [hfind]
    · intro b hb hsurp hne
      obtain ⟨wb, hwbmem, hwbfin⟩ := feasible_in_codeWindows hwf hk hb
      have hwbL := hwbmem
      rw [hsplit] at hwbL
      have hfind2 : (a.find_best_bundle all_slots prices cur).2
          = a.surplus wstar.toFinset prices := by rw [hfind]
      rcases List.mem_append.mp hwbL with h1 | h1
      · exfalso
        have hlt := hbefore wb h1
        have hcon : a.surplus b prices < a.surplus wstar.toFinset prices := by
          simpa [hwbfin] using hlt
        rw [hsurp, hfind2] at hcon
        exact lt_irrefl _ hcon
      · rcases List.mem_cons.mp h1 with h2 | h2
        · exfalso
          apply hne
          rw [← hwbfin, h2, hfind]
        · have hpl := codeWindows_pairwise_lex hwf hk hcpu
          rw [hsplit] at hpl
          have hp2 := (List.pairwise_append.mp hpl).2.1
          have hlex : windowLexLT wstar wb := (List.pairwise_cons.mp hp2).1 wb h2
          obtain ⟨hbc1, hbs1⟩ := codeWindow_bridge hwf hk hstar_mem
          obtain ⟨hbc2, hbs2⟩ := codeWindow_bridge hwf hk hwbmem
          rw [hfind]
          show ScanEarlier wstar.toFinset b
          unfold ScanEarlier
          rw [← hwbfin, hbc1, hbs1, hbc2, hbs2]
          exact hlex

/-! ### Claims C9 and C10: degenerate outcomes of the bundle search -/

/-- Claim C9: `find_best_bundle` returns the empty bundle with surplus 0 when
no resource holds `required_slots` valid pre-deadline slots (no feasible
window exists), and likewise when every feasible window's surplus at the
given prices is negative. -/
theorem find_best_bundle_empty_cases (a : Agent) (all_slots : List Slot)
    (prices : List (Int × ℚ)) (cur : Finset Slot)
    (hwf : WellFormedCatalog all_slots) (hk : 1 ≤ a.required_slots) :
    ((∀ c : Int, ((a.get_valid_slots all_slots).filter (fun s => s.cpu_id = c)).length
        < a.required_slots) →
      a.find_best_bundle all_slots prices cur = (∅, 0)) ∧
    ((∀ b, FeasibleWindow a all_slots b → a.surplus b prices < 0) →
      a.find_best_bundle all_slots prices cur = (∅, 0)) := by
  have hfb := find_best_bundle_eq a all_slots prices cur
  constructor
  · intro hshort
    have hnil : codeWindows a all_slots = [] := by
      rw [List.eq_nil_iff_forall_not_mem]
      intro w hw
      obtain ⟨c, _, hmemw, _⟩ := mem_codeWindows.mp hw
      obtain ⟨i, hik, _⟩ := mem_windowList.mp hmemw
      have hlen : (sortByTime ((a.get_valid_slots all_slots).filter
          (fun s => s.cpu_id = c))).length
          = ((a.get_valid_slots all_slots).filter (fun s => s.cpu_id = c)).length :=
        (sortByTime_perm _).length_eq
      have := hshort c
      omega
    rw [hfb, hnil]
    norm_num
  · intro hneg
    have hconst : (codeWindows a all_slots).foldl
        (argmaxStep (fun w => a.surplus w.toFinset prices)) (∅, 0) = (∅, 0) := by
      apply argmax_foldl_const
      intro w hw
      have hfeas := codeWindows_feasible hwf hk hw
      exact le_of_lt (hneg _ hfeas)
    rw [hfb, hconst]
    norm_num

/-- Claim C10: the returned surplus is never negative; a nonempty bundle is
returned only when some feasible window has strictly positive surplus; and
when no feasible window has positive surplus (in particular when the best is
exactly zero) the result is the empty bundle with surplus 0. -/
theorem find_best_bundle_nonneg (a : Agent) (all_slots : List Slot)
    (prices : List (Int × ℚ)) (cur : Finset Slot)
    (hwf : WellFormedCatalog all_slots) (hk : 1 ≤ a.required_slots) :
    0 ≤ (a.find_best_bundle all_slots prices cur).2 ∧
    ((a.find_best_bundle all_slots prices cur).1 ≠ ∅ →
      ∃ b, FeasibleWindow a all_slots b ∧ 0 < a.surplus b prices) ∧
    ((∀ b, FeasibleWindow a all_slots b → a.surplus b prices ≤ 0) →
      a.find_best_bundle all_slots prices cur = (∅, 0)) := by
  have hfb := find_best_bundle_eq a all_slots prices cur
  refine ⟨?_, ?_, ?_⟩
  · rw [hfb]
    split
    · norm_num
    · next h => exact le_of_not_lt h
  · intro hne
    rcases argmax_foldl_provenance (f := fun w => a.surplus w.toFinset prices)
        (codeWindows a all_slots) (∅, 0) with h | ⟨w, hwmem, hres, hpos⟩
    · exfalso
      apply hne
      rw [hfb, h]
      norm_num
    · refine ⟨w.toFinset, codeWindows_feasible hwf hk hwmem, ?_⟩
      simpa using hpos
  · intro hle
    have hconst : (codeWindows a all_slots).foldl
        (argmaxStep (fun w => a.surplus w.toFinset prices)) (∅, 0) = (∅, 0) := by
      apply argmax_foldl_const
      intro w hw
      exact hle _ (codeWindows_feasible hwf hk hw)
    rw [hfb, hconst]
    norm_num

/-- Concrete demonstration agent used by the witnesses below. -/
def demoAgent : Agent :=
  { agent_id := 0, name := "A", deadline_slot_id := 2, required_slots := 1, worth := 10 }

/-- Concrete demonstration catalog used by the witnesses below. -/
def demoSlots : List Slot :=
  [{ slot_id := 0, time_label := "9:00 AM", reserve_price := 3 },
   { slot_id := 1, time_label := "10:00 AM", reserve_price := 3 }]

/-- Concrete demonstration price map used by the witnesses below. -/
def demoPrices : List (Int × ℚ) :=
  [(0, 1), (1, 2)]

theorem find_best_bundle_local_optimality_witness :
    WellFormedCatalog demoSlots ∧ 1 ≤ demoAgent.required_slots ∧
      (demoSlots.map (fun s => s.cpu_id)).Pairwise (· ≤ ·) ∧
      ((∀ b, FeasibleWindow demoAgent demoSlots b →
        demoAgent.surplus b demoPrices
          ≤ (demoAgent.find_best_bundle demoSlots demoPrices ∅).2) ∧
      ((∃ b, FeasibleWindow demoAgent demoSlots b ∧ 0 < demoAgent.surplus b demoPrices) →
        FeasibleWindow demoAgent demoSlots
          (demoAgent.find_best_bundle demoSlots demoPrices ∅).1 ∧
        demoAgent.surplus (demoAgent.find_best_bundle demoSlots demoPrices ∅).1 demoPrices
          = (demoAgent.find_best_bundle demoSlots demoPrices ∅).2 ∧
        ∀ b, FeasibleWindow demoAgent demoSlots b →
          demoAgent.surplus b demoPrices
            = (demoAgent.find_best_bundle demoSlots demoPrices ∅).2 →
          b ≠ (demoAgent.find_best_bundle demoSlots demoPrices ∅).1 →
          ScanEarlier (demoAgent.find_best_bundle demoSlots demoPrices ∅).1 b)) :=
  ⟨⟨by decide, by decide⟩, by decide, by decide,
    find_best_bundle_local_optimality demoAgent demoSlots demoPrices ∅
      ⟨by decide, by decide⟩ (by decide) (by decide)⟩

theorem find_best_bundle_empty_cases_witness :
    WellFormedCatalog demoSlots ∧ 1 ≤ demoAgent.required_slots ∧
      (((∀ c : Int, ((demoAgent.get_valid_slots demoSlots).filter
            (fun s => s.cpu_id = c)).length < demoAgent.required_slots) →
        demoAgent.find_best_bundle demoSlots demoPrices ∅ = (∅, 0)) ∧
      ((∀ b, FeasibleWindow demoAgent demoSlots b → demoAgent.surplus b demoPrices < 0) →
        demoAgent.find_best_bundle demoSlots demoPrices ∅ = (∅, 0))) :=
  ⟨⟨by decide, by decide⟩, by decide,
    find_best_bundle_empty_cases demoAgent demoSlots demoPrices ∅
      ⟨by decide, by decide⟩ (by decide)⟩

theorem find_best_bundle_nonneg_witness :
    WellFormedCatalog demoSlots ∧ 1 ≤ demoAgent.required_slots ∧
      (0 ≤ (demoAgent.find_best_bundle demoSlots demoPrices ∅).2 ∧
      ((demoAgent.find_best_bundle demoSlots demoPrices ∅).1 ≠ ∅ →
        ∃ b, FeasibleWindow demoAgent demoSlots b ∧ 0 < demoAgent.surplus b demoPrices) ∧
      ((∀ b, FeasibleWindow demoAgent demoSlots b → demoAgent.surplus b demoPrices ≤ 0) →
        demoAgent.find_best_bundle demoSlots demoPrices ∅ = (∅, 0))) :=
  ⟨⟨by decide, by decide⟩, by decide,
    find_best_bundle_nonneg demoAgent demoSlots demoPrices ∅
      ⟨by decide, by decide⟩ (by decide)⟩

/-! ### Claim C7: the termination contract of the loop -/

/-- Line 174 of `AscendingAuction.run`: the converged flag computed after the
loop, `iteration < max_iterations`. -/
def AscendingAuction.convergedFlag (A : AscendingAuction) (m : Market) : Bool :=
  decide ((A.runLoop m).iteration < A.max_iterations)

theorem auctionRoundStep_iteration (epsilon : ℚ) (st : RunState × Bool) (agent : Agent) :
    (auctionRoundStep epsilon st agent).1.iteration = st.1.iteration :=
  rfl

theorem foldl_roundStep_iteration (epsilon : ℚ) (l : List Agent) :
    ∀ acc : RunState × Bool,
      (l.foldl (auctionRoundStep epsilon) acc).1.iteration = acc.1.iteration := by
  induction l with
  | nil => intro acc; rfl
  | cons a l ih =>
      intro acc
      rw [List.foldl_cons, ih, auctionRoundStep_iteration]

theorem runPass_iteration (epsilon : ℚ) (st : RunState) :
    (runPass epsilon st).1.iteration = st.iteration :=
  foldl_roundStep_iteration epsilon st.market.agents (st, false)

theorem runPasses_iteration_le (epsilon : ℚ) :
    ∀ (fuel : Nat) (st : RunState),
      (runPasses epsilon fuel st).iteration ≤ st.iteration + fuel := by
  intro fuel
  induction fuel with
  | zero => intro st; simp [runPasses]
  | succ f ih =>
      intro st
      simp only [runPasses]
      have h2 := runPass_iteration epsilon st
      by_cases h : (runPass epsilon st).2
      · rw [if_pos h]
        refine le_trans (ih _) ?_
        dsimp only
        omega
      · rw [if_neg h]
        dsimp only
        omega

/-- Claim C7, counterexample: with `max_iterations = 1` and a market with no
agents, the single pass makes no change — so by the claim the run should be
reported converged — yet line 174 computes `converged = iteration <
max_iterations`, which is false.  The claim's "a change-free pass is reported
converged" clause contradicts its own "iterations == maxIterations implies
converged == false" clause at this input, and the code follows the latter. -/
theorem auction_converged_counterexample :
    (runPass 1 ⟨Market.init [] [], [], 0, 0⟩).2 = false ∧
    (AscendingAuction.runLoop ⟨1, 1⟩ (Market.init [] [])).iteration = 1 ∧
    AscendingAuction.convergedFlag ⟨1, 1⟩ (Market.init [] []) = false := by
  refine ⟨rfl, rfl, ?_⟩
  decide

/-- Claim C7 as amended: `iterations ≤ maxIterations`; the converged flag is
exactly `iterations < maxIterations` (so `iterations = maxIterations` is
reported not converged); and a pass that makes no change stops the run
immediately, with only that pass added to the count — it is reported
converged exactly when it was not the `maxIterations`-th pass. -/
theorem auction_termination_contract (A : AscendingAuction) (m : Market)
    (hmax : 1 ≤ A.max_iterations) :
    (A.runLoop m).iteration ≤ A.max_iterations ∧
    (A.convergedFlag m = true ↔ (A.runLoop m).iteration < A.max_iterations) ∧
    ((A.runLoop m).iteration = A.max_iterations → A.convergedFlag m = false) ∧
    (∀ (st : RunState) (fuel : Nat), (runPass A.epsilon st).2 = false →
      runPasses A.epsilon (fuel + 1) st
        = { market := (runPass A.epsilon st).1.market,
            rounds := (runPass A.epsilon st).1.rounds,
            round_num := (runPass A.epsilon st).1.round_num,
            iteration := (runPass A.epsilon st).1.iteration + 1 }) := by
  refine ⟨?_, ?_, ?_, ?_⟩
  · have := runPasses_iteration_le A.epsilon A.max_iterations ⟨m, [], 0, 0⟩
    simpa [AscendingAuction.runLoop] using this
  · unfold AscendingAuction.convergedFlag
    exact decide_eq_true_iff
  · intro h
    unfold AscendingAuction.convergedFlag
    rw [h]
    simp
  · intro st fuel h
    simp only [runPasses]
    rw [if_neg (by rw [h]; exact Bool.false_ne_true)]

theorem auction_termination_contract_witness :
    1 ≤ (1 : Nat) ∧
    ((AscendingAuction.runLoop ⟨1, 1⟩ (Market.init [] [])).iteration ≤ 1 ∧
     (AscendingAuction.convergedFlag ⟨1, 1⟩ (Market.init [] []) = true ↔
      (AscendingAuction.runLoop ⟨1, 1⟩ (Market.init [] [])).iteration < 1) ∧
     ((AscendingAuction.runLoop ⟨1, 1⟩ (Market.init [] [])).iteration = 1 →
      AscendingAuction.convergedFlag ⟨1, 1⟩ (Market.init [] []) = false) ∧
     (∀ (st : RunState) (fuel : Nat),
        (runPass (AscendingAuction.mk 1 1).epsilon st).2 = false →
      runPasses (AscendingAuction.mk 1 1).epsilon (fuel + 1) st
        = { market := (runPass (AscendingAuction.mk 1 1).epsilon st).1.market,
            rounds := (runPass (AscendingAuction.mk 1 1).epsilon st).1.rounds,
            round_num := (runPass (AscendingAuction.mk 1 1).epsilon st).1.round_num,
            iteration := (runPass (AscendingAuction.mk 1 1).epsilon st).1.iteration + 1 })) :=
  ⟨by decide,
    auction_termination_contract ⟨1, 1⟩ (Market.init [] []) (by decide)⟩

/-! ### Behaviour of dictionary assignment -/

theorem alookup_map_update {β : Type} (k : Int) (v : β) (l : List (Int × β)) :
    alookup k (l.map (fun p => if p.1 = k then (k, v) else p))
      = if (alookup k l).isSome then some v else none := by
  induction l with
  | nil => simp [alookup]
  | cons p ps ih =>
      by_cases hp : p.1 = k
      · simp [alookup, hp]
      · simp [alookup, hp, ih]

theorem alookup_map_update_ne {β : Type} {kk k : Int} (v : β) (l : List (Int × β))
    (h : kk ≠ k) :
    alookup kk (l.map (fun p => if p.1 = k then (k, v) else p)) = alookup kk l := by
  induction l with
  | nil => simp [alookup]
  | cons p ps ih =>
      by_cases hp : p.1 = k
      · have h1 : ¬ p.1 = kk := by rw [hp]; exact fun hh => h hh.symm
        have h2 : ¬ k = kk := fun hh => h hh.symm
        simp [alookup, hp, h1, h2, ih]
      · simp only [List.map_cons, if_neg hp, alookup]
        by_cases hpk : p.1 = kk
        · rw [if_pos hpk, if_pos hpk]
        · rw [if_neg hpk, if_neg hpk, ih]

theorem alookup_append {β : Type} (k : Int) (l1 l2 : List (Int × β)) :
    alookup k (l1 ++ l2)
      = if (alookup k l1).isSome then alookup k l1 else alookup k l2 := by
  induction l1 with
  | nil => simp [alookup]
  | cons p ps ih =>
      by_cases hp : p.1 = k
      · simp [alookup, hp]
      · simp [alookup, hp, ih]

theorem alookup_aset_self {β : Type} (k : Int) (v : β) (l : List (Int × β)) :
    alookup k (aset k v l) = some v := by
  unfold aset
  by_cases h : (alookup k l).isSome
  · rw [if_pos h, alookup_map_update, if_pos h]
  · rw [if_neg h, alookup_append, if_neg h]
    simp [alookup]

theorem alookup_aset_ne {β : Type} {kk k : Int} (v : β) (l : List (Int × β)) (h : kk ≠ k) :
    alookup kk (aset k v l) = alookup kk l := by
  unfold aset
  by_cases hs : (alookup k l).isSome
  · rw [if_pos hs]
    exact alookup_map_update_ne v l h
  · rw [if_neg hs, alookup_append]
    by_cases h2 : (alookup kk l).isSome
    · rw [if_pos h2]
    · rw [if_neg h2]
      have h3 : alookup kk l = none := Option.not_isSome_iff_eq_none.mp h2
      have h4 : ¬ k = kk := fun hh => h hh.symm
      rw [h3]
      simp [alookup, h4]

theorem alookup_aset_isSome {β : Type} {kk k : Int} (v : β) (l : List (Int × β))
    (h : (alookup kk l).isSome) : (alookup kk (aset k v l)).isSome := by
  by_cases hk : kk = k
  · subst hk
    rw [alookup_aset_self]
    rfl
  · rw [alookup_aset_ne v l hk]
    exact h

/-! ### Price evolution during a run (claim C5) -/

/-- The price map binds every catalog slot (true of every market the engine
sees, by `Market.__post_init__`). -/
def PriceCover (m : Market) : Prop :=
  ∀ s ∈ m.slots, (alookup s.slot_id m.bid_prices).isSome = true

/-- Every bound price is at least the slot's reserve price. -/
def ReserveLB (m : Market) : Prop :=
  ∀ s ∈ m.slots, ∀ q, alookup s.slot_id m.bid_prices = some q → s.reserve_price ≤ q

/-- Pointwise price dominance between two price maps. -/
def priceLE (m1 m2 : Market) : Prop :=
  ∀ (k : Int) (q : ℚ), alookup k m1.bid_prices = some q →
    ∃ q2, alookup k m2.bid_prices = some q2 ∧ q ≤ q2

theorem priceLE_refl (m : Market) : priceLE m m :=
  fun _ q hq => ⟨q, hq, le_refl _⟩

theorem priceLE_trans {m1 m2 m3 : Market} (h12 : priceLE m1 m2) (h23 : priceLE m2 m3) :
    priceLE m1 m3 := by
  intro k q hq
  obtain ⟨q2, hq2, hle2⟩ := h12 k q hq
  obtain ⟨q3, hq3, hle3⟩ := h23 k q2 hq2
  exact ⟨q3, hq3, le_trans hle2 hle3⟩

theorem bidUpdate_slots (epsilon : ℚ) (agent : Agent) (m : Market) (slot : Slot) :
    (bidUpdate epsilon agent m slot).slots = m.slots := by
  unfold bidUpdate
  dsimp only
  split
  · split <;> rfl
  · rfl

theorem bidUpdate_agents (epsilon : ℚ) (agent : Agent) (m : Market) (slot : Slot) :
    (bidUpdate epsilon agent m slot).agents = m.agents := by
  unfold bidUpdate
  dsimp only
  split
  · split <;> rfl
  · rfl

theorem bidUpdate_bid_prices (epsilon : ℚ) (agent : Agent) (m : Market) (slot : Slot) :
    (bidUpdate epsilon agent m slot).bid_prices
      = aset slot.slot_id (m.get_bid_price slot + epsilon) m.bid_prices := by
  unfold bidUpdate
  dsimp only
  split
  · split <;> rfl
  · rfl

theorem bidUpdate_market_shape (epsilon : ℚ) (agent : Agent) (m : Market) (slot : Slot) :
    (bidUpdate epsilon agent m slot).slots = m.slots ∧
    (bidUpdate epsilon agent m slot).agents = m.agents ∧
    (bidUpdate epsilon agent m slot).bid_prices
      = aset slot.slot_id (m.get_bid_price slot + epsilon) m.bid_prices :=
  ⟨bidUpdate_slots epsilon agent m slot, bidUpdate_agents epsilon agent m slot,
    bidUpdate_bid_prices epsilon agent m slot⟩

theorem bidUpdate_priceLE (epsilon : ℚ) (hε : 0 ≤ epsilon) (agent : Agent) (m : Market)
    (slot : Slot) : priceLE m (bidUpdate epsilon agent m slot) := by
  intro k q hq
  obtain ⟨_, _, hbp⟩ := bidUpdate_market_shape epsilon agent m slot
  rw [hbp]
  by_cases hk : k = slot.slot_id
  · subst hk
    refine ⟨m.get_bid_price slot + epsilon, alookup_aset_self _ _ _, ?_⟩
    unfold Market.get_bid_price aget
    rw [hq]
    simp only [Option.getD_some]
    linarith
  · rw [alookup_aset_ne _ _ hk]
    exact ⟨q, hq, le_refl _⟩

theorem bidUpdate_cover (epsilon : ℚ) (agent : Agent) (m : Market) (slot : Slot)
    (hc : PriceCover m) : PriceCover (bidUpdate epsilon agent m slot) := by
  obtain ⟨hsl, _, hbp⟩ := bidUpdate_market_shape epsilon agent m slot
  intro s hs
  rw [hsl] at hs
  rw [hbp]
  exact alookup_aset_isSome _ _ (hc s hs)

theorem bidUpdate_reserveLB (epsilon : ℚ) (hε : 0 ≤ epsilon) (agent : Agent) (m : Market)
    (slot : Slot) (hc : PriceCover m) (hr : ReserveLB m) :
    ReserveLB (bidUpdate epsilon agent m slot) := by
  obtain ⟨hsl, _, hbp⟩ := bidUpdate_market_shape epsilon agent m slot
  intro s hs q hq
  rw [hsl] at hs
  rw [hbp] at hq
  by_cases hk : s.slot_id = slot.slot_id
  · rw [hk, alookup_aset_self] at hq
    have hsome := hc s hs
    obtain ⟨q0, hq0⟩ := Option.isSome_iff_exists.mp hsome
    have hr0 := hr s hs q0 hq0
    have : m.get_bid_price slot = q0 := by
      unfold Market.get_bid_price aget
      rw [← hk, hq0]
      rfl
    rw [this] at hq
    have : q = q0 + epsilon := by injection hq.symm
    rw [this]
    linarith
  · rw [alookup_aset_ne _ _ hk] at hq
    exact hr s hs q hq

theorem foldl_bidUpdate_facts (epsilon : ℚ) (hε : 0 ≤ epsilon) (agent : Agent)
    (L : List Slot) :
    ∀ m : Market,
      (L.foldl (bidUpdate epsilon agent) m).slots = m.slots ∧
      (L.foldl (bidUpdate epsilon agent) m).agents = m.agents ∧
      priceLE m (L.foldl (bidUpdate epsilon agent) m) ∧
      (PriceCover m → PriceCover (L.foldl (bidUpdate epsilon agent) m)) ∧
      (PriceCover m → ReserveLB m → ReserveLB (L.foldl (bidUpdate epsilon agent) m)) := by
  induction L with
  | nil => exact fun m => ⟨rfl, rfl, priceLE_refl m, fun h => h, fun _ h => h⟩
  | cons x xs ih =>
      intro m
      rw [List.foldl_cons]
      obtain ⟨h1, h2, h3, h4, h5⟩ := ih (bidUpdate epsilon agent m x)
      obtain ⟨g1, g2, g3⟩ := bidUpdate_market_shape epsilon agent m x
      refine ⟨by rw [h1, g1], by rw [h2, g2], ?_, ?_, ?_⟩
      · exact priceLE_trans (bidUpdate_priceLE epsilon hε agent m x) h3
      · intro hc
        exact h4 (bidUpdate_cover epsilon agent m x hc)
      · intro hc hr
        exact h5 (bidUpdate_cover epsilon agent m x hc)
          (bidUpdate_reserveLB epsilon hε agent m x hc hr)

/-- Pointwise order between two recorded price vectors. -/
def snapLE (l1 l2 : List ℚ) : Prop :=
  ∀ i p1 p2, l1.get? i = some p1 → l2.get? i = some p2 → p1 ≤ p2

theorem snapLE_trans {l1 l2 l3 : List ℚ} (h12 : snapLE l1 l2) (h23 : snapLE l2 l3)
    (hlen : l3.length ≤ l2.length) : snapLE l1 l3 := by
  intro i p1 p3 h1 h3
  have hi : i < l3.length := List.get?_eq_some.mp h3 |>.1
  have h2 : ∃ p2, l2.get? i = some p2 := by
    have : i < l2.length := lt_of_lt_of_le hi hlen
    rcases List.get?_eq_some.mpr ⟨this, rfl⟩ with h
    exact ⟨_, h⟩
  obtain ⟨p2, h2⟩ := h2
  exact le_trans (h12 i p1 p2 h1 h2) (h23 i p2 p3 h2 h3)

theorem priceSnapshot_length (m : Market) : (priceSnapshot m).length = m.slots.length :=
  List.length_map _ _

theorem priceSnapshot_mono {m m2 : Market} (hc : PriceCover m) (hs : m2.slots = m.slots)
    (hle : priceLE m m2) : snapLE (priceSnapshot m) (priceSnapshot m2) := by
  intro i p1 p2 h1 h2
  unfold priceSnapshot at h1 h2
  rw [List.get?_map] at h1 h2
  rcases hm : m.slots.get? i with _ | s
  · rw [hm] at h1; cases h1
  · rw [hm] at h1
    rw [hs, hm] at h2
    have hmem : s ∈ m.slots := List.get?_mem hm
    obtain ⟨q, hq⟩ := Option.isSome_iff_exists.mp (hc s hmem)
    have hp1 : p1 = m.get_bid_price s := by injection h1.symm
    have hp2 : p2 = m2.get_bid_price s := by injection h2.symm
    obtain ⟨q2, hq2, hle2⟩ := hle s.slot_id q hq
    rw [hp1, hp2]
    unfold Market.get_bid_price aget
    rw [hq, hq2]
    simpa using hle2

theorem reserveLB_get_bid_price {m : Market} (hr : ReserveLB m) :
    ∀ s ∈ m.slots, s.reserve_price ≤ m.get_bid_price s := by
  intro s hs
  unfold Market.get_bid_price aget
  rcases h : alookup s.slot_id m.bid_prices with _ | q
  · simp
  · simpa using hr s hs q h

theorem priceSnapshot_reserve {m : Market} (hr : ReserveLB m) {slots0 : List Slot}
    (hs : m.slots = slots0) :
    ∀ i s p, slots0.get? i = some s → (priceSnapshot m).get? i = some p →
      s.reserve_price ≤ p := by
  intro i s p h1 h2
  unfold priceSnapshot at h2
  rw [List.get?_map, hs, h1] at h2
  have hp : p = m.get_bid_price s := by injection h2.symm
  rw [hp]
  exact reserveLB_get_bid_price hr s (hs ▸ List.get?_mem h1)

/-- The inductive price invariant of the loop state: the market covers its
slots with bindings at or above reserve, and the recorded snapshots are
pointwise monotone among themselves and below the current prices. -/
def PriceInv (slots0 : List Slot) (st : RunState) : Prop :=
  st.market.slots = slots0 ∧ PriceCover st.market ∧ ReserveLB st.market ∧
  (∀ r ∈ st.rounds, r.bid_prices.length = slots0.length) ∧
  st.rounds.Pairwise (fun r1 r2 => snapLE r1.bid_prices r2.bid_prices) ∧
  (∀ r ∈ st.rounds, snapLE r.bid_prices (priceSnapshot st.market)) ∧
  (∀ r ∈ st.rounds, ∀ i s p, slots0.get? i = some s → r.bid_prices.get? i = some p →
    s.reserve_price ≤ p)

theorem set_allocation_shape (m : Market) (a : Agent) (b : Finset Slot) :
    (m.set_allocation a b).slots = m.slots ∧ (m.set_allocation a b).agents = m.agents ∧
    (m.set_allocation a b).bid_prices = m.bid_prices :=
  ⟨rfl, rfl, rfl⟩

theorem auctionRoundStep_market (epsilon : ℚ) (st : RunState × Bool) (agent : Agent) :
    (auctionRoundStep epsilon st agent).1.market =
      (if (agent.find_best_bundle st.1.market.slots
            (st.1.market.compute_ask_prices agent epsilon)
            (st.1.market.get_allocation agent)).1 ≠ st.1.market.get_allocation agent then
        ((slotList ((agent.find_best_bundle st.1.market.slots
            (st.1.market.compute_ask_prices agent epsilon)
            (st.1.market.get_allocation agent)).1 \ st.1.market.get_allocation agent)).foldl
          (bidUpdate epsilon agent) st.1.market).set_allocation agent
          (agent.find_best_bundle st.1.market.slots
            (st.1.market.compute_ask_prices agent epsilon)
            (st.1.market.get_allocation agent)).1
      else
        (slotList ((agent.find_best_bundle st.1.market.slots
            (st.1.market.compute_ask_prices agent epsilon)
            (st.1.market.get_allocation agent)).1 \ st.1.market.get_allocation agent)).foldl
          (bidUpdate epsilon agent) st.1.market) :=
  rfl

theorem auctionRoundStep_rounds_map (epsilon : ℚ) (st : RunState × Bool) (agent : Agent) :
    ((auctionRoundStep epsilon st agent).1.rounds).map (fun r => r.bid_prices)
      = (st.1.rounds.map (fun r => r.bid_prices)) ++ [priceSnapshot st.1.market] := by
  show (st.1.rounds ++ [_]).map (fun (r : AuctionRound) => r.bid_prices) = _
  rw [List.map_append]
  rfl

theorem auctionRoundStep_market_facts (epsilon : ℚ) (hε : 0 ≤ epsilon)
    (st : RunState × Bool) (agent : Agent) :
    (auctionRoundStep epsilon st agent).1.market.slots = st.1.market.slots ∧
    priceLE st.1.market (auctionRoundStep epsilon st agent).1.market ∧
    (PriceCover st.1.market → PriceCover (auctionRoundStep epsilon st agent).1.market) ∧
    (PriceCover st.1.market → ReserveLB st.1.market →
      ReserveLB (auctionRoundStep epsilon st agent).1.market) := by
  rw [auctionRoundStep_market]
  obtain ⟨f1, f2, f3, f4, f5⟩ := foldl_bidUpdate_facts epsilon hε agent
    (slotList ((agent.find_best_bundle st.1.market.slots
      (st.1.market.compute_ask_prices agent epsilon)
      (st.1.market.get_allocation agent)).1 \ st.1.market.get_allocation agent))
    st.1.market
  split
  · exact ⟨f1, f3, f4, f5⟩
  · exact ⟨f1, f3, f4, f5⟩

theorem auctionRoundStep_rounds (epsilon : ℚ) (st : RunState × Bool) (agent : Agent) :
    (auctionRoundStep epsilon st agent).1.rounds = st.1.rounds ++
      [{ round_num := st.1.round_num + 1, bidder := agent,
         slots_bid_on := (agent.find_best_bundle st.1.market.slots
           (st.1.market.compute_ask_prices agent epsilon)
           (st.1.market.get_allocation agent)).1 \ st.1.market.get_allocation agent,
         allocations := allocSnapshot st.1.market,
         bid_prices := priceSnapshot st.1.market }] :=
  rfl

theorem PriceInv_roundStep (epsilon : ℚ) (hε : 0 ≤ epsilon) (slots0 : List Slot)
    (st : RunState × Bool) (agent : Agent) (h : PriceInv slots0 st.1) :
    PriceInv slots0 (auctionRoundStep epsilon st agent).1 := by
  obtain ⟨hs0, hc, hr, hlen, hpw, hcur, hres⟩ := h
  obtain ⟨g1, g2, g3, g4⟩ := auctionRoundStep_market_facts epsilon hε st agent
  have hmono : snapLE (priceSnapshot st.1.market)
      (priceSnapshot (auctionRoundStep epsilon st agent).1.market) :=
    priceSnapshot_mono hc g1 g2
  have hsnaplen : (priceSnapshot (auctionRoundStep epsilon st agent).1.market).length
      = (priceSnapshot st.1.market).length := by
    rw [priceSnapshot_length, priceSnapshot_length, g1]
  refine ⟨by rw [g1, hs0], g3 hc, g4 hc hr, ?_, ?_, ?_, ?_⟩
  · intro r hrmem
    rw [auctionRoundStep_rounds] at hrmem
    rcases List.mem_append.mp hrmem with h1 | h1
    · exact hlen r h1
    · rcases List.mem_singleton.mp h1 with rfl
      show (priceSnapshot st.1.market).length = slots0.length
      rw [priceSnapshot_length, hs0]
  · rw [auctionRoundStep_rounds]
    rw [List.pairwise_append]
    refine ⟨hpw, List.pairwise_singleton _ _, ?_⟩
    intro r h1 e h2
    rcases List.mem_singleton.mp h2 with rfl
    exact hcur r h1
  · intro r hrmem
    rw [auctionRoundStep_rounds] at hrmem
    rcases List.mem_append.mp hrmem with h1 | h1
    · exact snapLE_trans (hcur r h1) hmono (le_of_eq hsnaplen)
    · rcases List.mem_singleton.mp h1 with rfl
      exact hmono
  · intro r hrmem
    rw [auctionRoundStep_rounds] at hrmem
    rcases List.mem_append.mp hrmem with h1 | h1
    · exact hres r h1
    · rcases List.mem_singleton.mp h1 with rfl
      exact priceSnapshot_reserve hr hs0

theorem PriceInv_runPass (epsilon : ℚ) (hε : 0 ≤ epsilon) (slots0 : List Slot) :
    ∀ (l : List Agent) (acc : RunState × Bool), PriceInv slots0 acc.1 →
      PriceInv slots0 (l.foldl (auctionRoundStep epsilon) acc).1 := by
  intro l
  induction l with
  | nil => exact fun acc h => h
  | cons a l ih =>
      intro acc h
      rw [List.foldl_cons]
      exact ih _ (PriceInv_roundStep epsilon hε slots0 acc a h)

theorem PriceInv_runPasses (epsilon : ℚ) (hε : 0 ≤ epsilon) (slots0 : List Slot) :
    ∀ (fuel : Nat) (st : RunState), PriceInv slots0 st →
      PriceInv slots0 (runPasses epsilon fuel st) := by
  intro fuel
  induction fuel with
  | zero => exact fun st h => h
  | succ f ih =>
      intro st h
      simp only [runPasses]
      have hpass : PriceInv slots0 (runPass epsilon st).1 :=
        PriceInv_runPass epsilon hε slots0 st.market.agents (st, false) h
      by_cases hchg : (runPass epsilon st).2
      · rw [if_pos hchg]
        exact ih _ hpass
      · rw [if_neg hchg]
        exact hpass

theorem init_cover (agents : List Agent) (slots : List Slot) :
    PriceCover (Market.init agents slots) := by
  intro s hs
  show (alookup s.slot_id (slots.map (fun t => (t.slot_id, t.reserve_price)))).isSome = true
  induction slots with
  | nil => cases hs
  | cons t ts ih =>
      rw [List.map_cons]
      unfold alookup
      by_cases ht : t.slot_id = s.slot_id
      · rw [if_pos ht]; rfl
      · rw [if_neg ht]
        rcases List.mem_cons.mp hs with h1 | h1
        · exact absurd (congrArg Slot.slot_id h1.symm) ht
        · exact ih h1

theorem init_reserveLB (agents : List Agent) (slots : List Slot)
    (hS : (slots.map (fun s => s.slot_id)).Nodup) :
    ReserveLB (Market.init agents slots) := by
  intro s hs q hq
  have hmain : ∀ (l : List Slot), (l.map (fun s => s.slot_id)).Nodup → s ∈ l →
      alookup s.slot_id (l.map (fun t => (t.slot_id, t.reserve_price)))
        = some s.reserve_price := by
    intro l
    induction l with
    | nil => intro _ hmem; cases hmem
    | cons t ts ih =>
        intro hnd hmem
        rw [List.map_cons]
        unfold alookup
        rcases List.mem_cons.mp hmem with h1 | h1
        · subst h1
          rw [if_pos rfl]
        · by_cases ht : t.slot_id = s.slot_id
          · exfalso
            rw [List.map_cons] at hnd
            have : s.slot_id ∈ ts.map (fun u => u.slot_id) :=
              List.mem_map.mpr ⟨s, h1, rfl⟩
            rw [← ht] at this
            exact (List.nodup_cons.mp hnd).1 this
          · rw [if_neg ht]
            exact ih (List.nodup_cons.mp (by rwa [List.map_cons] at hnd)).2 h1
  have := hmain slots hS hs
  rw [show alookup s.slot_id (Market.init agents slots).bid_prices
      = alookup s.slot_id (slots.map (fun t => (t.slot_id, t.reserve_price))) from rfl] at hq
  rw [this] at hq
  injection hq with hq
  rw [← hq]

theorem pairwise_get_of_get? {α : Type} {R : α → α → Prop} {l : List α} (h : l.Pairwise R)
    {i j : Nat} (hij : i < j) {a b : α} (ha : l.get? i = some a) (hb : l.get? j = some b) :
    R a b := by
  obtain ⟨hi, ha'⟩ := List.get?_eq_some.mp ha
  obtain ⟨hj, hb'⟩ := List.get?_eq_some.mp hb
  have := List.pairwise_iff_get.mp h ⟨i, hi⟩ ⟨j, hj⟩ hij
  rwa [ha', hb'] at this

/-! ### Claim C5: price monotonicity and the reserve floor -/

/-- Claim C5: in every run with positive epsilon started from a freshly
initialized market (prices at reserve), every slot's recorded price is
non-decreasing across trace snapshots (`t1 < t2` implies pointwise `≤`), and
at all times — at every snapshot and in the final market — each slot's price
is at least its reserve price. -/
theorem auction_price_monotonicity (A : AscendingAuction) (agents : List Agent)
    (slots : List Slot) (hε : 0 < A.epsilon)
    (hS : (slots.map (fun s => s.slot_id)).Nodup) :
    (∀ t1 t2 r1 r2, t1 < t2 →
      (A.runLoop (Market.init agents slots)).rounds.get? t1 = some r1 →
      (A.runLoop (Market.init agents slots)).rounds.get? t2 = some r2 →
      snapLE r1.bid_prices r2.bid_prices) ∧
    (∀ r ∈ (A.runLoop (Market.init agents slots)).rounds, ∀ i s p,
      slots.get? i = some s → r.bid_prices.get? i = some p → s.reserve_price ≤ p) ∧
    (∀ s ∈ slots, s.reserve_price
      ≤ (A.runLoop (Market.init agents slots)).market.get_bid_price s) := by
  have hinit : PriceInv slots ⟨Market.init agents slots, [], 0, 0⟩ := by
    refine ⟨rfl, init_cover agents slots, init_reserveLB agents slots hS, ?_, ?_, ?_, ?_⟩
    · intro r hrmem; cases hrmem
    · exact List.Pairwise.nil
    · intro r hrmem; cases hrmem
    · intro r hrmem; cases hrmem
  have hfin : PriceInv slots (A.runLoop (Market.init agents slots)) :=
    PriceInv_runPasses A.epsilon (le_of_lt hε) slots A.max_iterations _ hinit
  obtain ⟨hs0, hc, hr, hlen, hpw, hcur, hres⟩ := hfin
  refine ⟨?_, ?_, ?_⟩
  · intro t1 t2 r1 r2 h12 h1 h2
    exact pairwise_get_of_get? hpw h12 h1 h2
  · exact hres
  · intro s hs
    exact reserveLB_get_bid_price hr s (by rwa [hs0])

theorem auction_price_monotonicity_witness :
    0 < (AscendingAuction.mk 1 2).epsilon ∧
    (demoSlots.map (fun s => s.slot_id)).Nodup ∧
    ((∀ t1 t2 r1 r2, t1 < t2 →
      (AscendingAuction.runLoop ⟨1, 2⟩ (Market.init [demoAgent] demoSlots)).rounds.get? t1
        = some r1 →
      (AscendingAuction.runLoop ⟨1, 2⟩ (Market.init [demoAgent] demoSlots)).rounds.get? t2
        = some r2 →
      snapLE r1.bid_prices r2.bid_prices) ∧
    (∀ r ∈ (AscendingAuction.runLoop ⟨1, 2⟩ (Market.init [demoAgent] demoSlots)).rounds,
      ∀ i s p, demoSlots.get? i = some s → r.bid_prices.get? i = some p →
        s.reserve_price ≤ p) ∧
    (∀ s ∈ demoSlots, s.reserve_price
      ≤ (AscendingAuction.runLoop ⟨1, 2⟩
          (Market.init [demoAgent] demoSlots)).market.get_bid_price s)) :=
  ⟨by norm_num, by decide,
    auction_price_monotonicity ⟨1, 2⟩ [demoAgent] demoSlots (by norm_num) (by decide)⟩

/-! ### Allocation partition during a run (claim C6) -/

theorem alookup_isSome_iff_mem_keys {β : Type} (k : Int) (l : List (Int × β)) :
    (alookup k l).isSome = true ↔ k ∈ l.map (fun p => p.1) := by
  induction l with
  | nil => simp [alookup]
  | cons p ps ih =>
      rw [List.map_cons]
      unfold alookup
      by_cases hp : p.1 = k
      · simp [hp]
      · simp only [if_neg hp, List.mem_cons, ih]
        constructor
        · intro h; exact Or.inr h
        · rintro (h | h)
          · exact absurd h.symm hp
          · exact h

theorem aset_keys {β : Type} (k : Int) (v : β) (l : List (Int × β))
    (h : (alookup k l).isSome = true) :
    (aset k v l).map (fun p => p.1) = l.map (fun p => p.1) := by
  unfold aset
  rw [if_pos h, List.map_map]
  apply List.map_congr_left
  intro p _
  by_cases hp : p.1 = k
  · simp [hp]
  · simp [hp]

theorem codeWindows_subset {a : Agent} {all_slots : List Slot} {w : List Slot}
    (hw : w ∈ codeWindows a all_slots) : ∀ x ∈ w, x ∈ all_slots := by
  obtain ⟨c, _, hmemw, _⟩ := mem_codeWindows.mp hw
  obtain ⟨i, hik, rfl⟩ := mem_windowList.mp hmemw
  intro x hx
  have h1 : x ∈ sortByTime ((a.get_valid_slots all_slots).filter (fun s => s.cpu_id = c)) :=
    (window_sublist _ _ _).mem hx
  have h2 := (sortByTime_perm _).mem_iff.mp h1
  have h3 := (List.mem_filter.mp h2).1
  exact (List.mem_filter.mp h3).1

theorem find_best_bundle_subset (a : Agent) (all_slots : List Slot)
    (prices : List (Int × ℚ)) (cur : Finset Slot) :
    ∀ x ∈ (a.find_best_bundle all_slots prices cur).1, x ∈ all_slots := by
  rw [find_best_bundle_eq]
  rcases argmax_foldl_zero_provenance
      (f := fun w => a.surplus w.toFinset prices) (codeWindows a all_slots) with h | h
  · rw [h]
    intro x hx
    split at hx
    · cases hx
    · cases hx
  · obtain ⟨w, hwmem, hres, _⟩ := h
    rw [hres]
    intro x hx
    split at hx
    · cases hx
    · exact codeWindows_subset hwmem x (List.mem_toFinset.mp hx)

/-- The inductive allocation invariant of the loop state: the allocation
dictionary is keyed exactly by the agent ids, its bundles are pairwise
disjoint sets of catalog slots, and every recorded snapshot's per-agent
slot-id lists are pairwise disjoint. -/
def AllocInv (agents0 : List Agent) (slots0 : List Slot) (st : RunState) : Prop :=
  st.market.agents = agents0 ∧ st.market.slots = slots0 ∧
  st.market.allocations.map (fun p => p.1) = agents0.map (fun a => a.agent_id) ∧
  (∀ k1 k2 b1 b2, k1 ≠ k2 → alookup k1 st.market.allocations = some b1 →
    alookup k2 st.market.allocations = some b2 → Disjoint b1 b2) ∧
  (∀ k b, alookup k st.market.allocations = some b → ∀ x ∈ b, x ∈ slots0) ∧
  (∀ r ∈ st.rounds, ∀ p1 ∈ r.allocations, ∀ p2 ∈ r.allocations, p1.1 ≠ p2.1 →
    ∀ x, x ∈ p1.2 → x ∉ p2.2)

theorem get_slot_owner_none {m : Market} {slot : Slot}
    (h : m.get_slot_owner slot = none) : ∀ a ∈ m.agents, slot ∉ m.get_allocation a := by
  unfold Market.get_slot_owner at h
  intro a ha hmem
  have := List.find?_eq_none.mp h a ha
  simp only [decide_eq_true_eq] at this
  exact this hmem

theorem bidUpdate_alloc_cases (epsilon : ℚ) (agent : Agent) (m : Market) (slot : Slot) :
    ((bidUpdate epsilon agent m slot).allocations = m.allocations ∧
      (m.get_slot_owner slot = none ∨
        ∃ owner, m.get_slot_owner slot = some owner ∧ owner.agent_id = agent.agent_id ∧
          slot ∈ m.get_allocation owner)) ∨
    (∃ owner, m.get_slot_owner slot = some owner ∧ owner ∈ m.agents ∧
      owner.agent_id ≠ agent.agent_id ∧ slot ∈ m.get_allocation owner ∧
      (bidUpdate epsilon agent m slot).allocations
        = aset owner.agent_id (m.get_allocation owner \ {slot}) m.allocations) := by
  unfold bidUpdate
  dsimp only
  split
  · next owner howner =>
      have howner2 : m.get_slot_owner slot = some owner := howner
      have hpred : slot ∈ m.get_allocation owner := by
        have := List.find?_some howner2
        simpa using this
      have hmem : owner ∈ m.agents := List.mem_of_find?_eq_some howner2
      by_cases hid : owner.agent_id ≠ agent.agent_id
      · rw [if_pos hid]
        exact Or.inr ⟨owner, howner2, hmem, hid, hpred, rfl⟩
      · rw [if_neg hid]
        push_neg at hid
        exact Or.inl ⟨rfl, Or.inr ⟨owner, howner2, hid, hpred⟩⟩
  · next hnone =>
      have hnone2 : m.get_slot_owner slot = none := hnone
      exact Or.inl ⟨rfl, Or.inl hnone2⟩

theorem bidUpdate_alloc_step (epsilon : ℚ) (agent : Agent) (m : Market) (slot : Slot)
    (agents0 : List Agent) (hag : m.agents = agents0)
    (hkeys : m.allocations.map (fun p => p.1) = agents0.map (fun a => a.agent_id))
    (hdisj : ∀ k1 k2 b1 b2, k1 ≠ k2 → alookup k1 m.allocations = some b1 →
      alookup k2 m.allocations = some b2 → Disjoint b1 b2)
    (hslot : slot ∉ m.get_allocation agent) :
    (bidUpdate epsilon agent m slot).allocations.map (fun p => p.1)
      = agents0.map (fun a => a.agent_id) ∧
    (∀ k b1, alookup k (bidUpdate epsilon agent m slot).allocations = some b1 →
      ∃ b0, alookup k m.allocations = some b0 ∧ b1 ⊆ b0) ∧
    alookup agent.agent_id (bidUpdate epsilon agent m slot).allocations
      = alookup agent.agent_id m.allocations ∧
    (∀ k b1, k ≠ agent.agent_id →
      alookup k (bidUpdate epsilon agent m slot).allocations = some b1 → slot ∉ b1) := by
  rcases bidUpdate_alloc_cases epsilon agent m slot with ⟨hsame, hcase⟩ | hevict
  · rw [hsame]
    refine ⟨hkeys, fun k b1 h => ⟨b1, h, subset_refl _⟩, rfl, ?_⟩
    intro k b1 hk h hmem
    rcases hcase with hnone | ⟨owner, howner, hoid, hin⟩
    · have hkmem : k ∈ agents0.map (fun a => a.agent_id) := by
        rw [← hkeys]
        exact (alookup_isSome_iff_mem_keys k m.allocations).mp (by rw [h]; rfl)
      obtain ⟨a1, ha1, ha1k⟩ := List.mem_map.mp hkmem
      have : slot ∉ m.get_allocation a1 := get_slot_owner_none hnone a1 (by rwa [hag])
      apply this
      show slot ∈ (alookup a1.agent_id m.allocations).getD ∅
      rw [ha1k, h]
      exact hmem
    · apply hslot
      show slot ∈ (alookup agent.agent_id m.allocations).getD ∅
      have : slot ∈ (alookup owner.agent_id m.allocations).getD ∅ := hin
      rwa [hoid] at this
  · obtain ⟨owner, howner, homem, hoid, hin, halloc⟩ := hevict
    have hbind : ∃ b0, alookup owner.agent_id m.allocations = some b0
        ∧ m.get_allocation owner = b0 := by
      unfold Market.get_allocation at hin ⊢
      rcases hb : alookup owner.agent_id m.allocations with _ | b0
      · rw [hb] at hin
        simp at hin
      · exact ⟨b0, rfl, rfl⟩
    obtain ⟨b0, hb0, hgb0⟩ := hbind
    have hsome : (alookup owner.agent_id m.allocations).isSome = true := by rw [hb0]; rfl
    refine ⟨?_, ?_, ?_, ?_⟩
    · rw [halloc, aset_keys _ _ _ hsome, hkeys]
    · intro k b1 h
      rw [halloc] at h
      by_cases hk : k = owner.agent_id
      · subst hk
        rw [alookup_aset_self] at h
        refine ⟨b0, hb0, ?_⟩
        have : b1 = m.get_allocation owner \ {slot} := by injection h.symm
        rw [this, hgb0]
        exact Finset.sdiff_subset
      · rw [alookup_aset_ne _ _ hk] at h
        exact ⟨b1, h, subset_refl _⟩
    · rw [halloc, alookup_aset_ne _ _ (fun hh => hoid hh.symm)]
    · intro k b1 hk h hmem
      rw [halloc] at h
      by_cases hko : k = owner.agent_id
      · subst hko
        rw [alookup_aset_self] at h
        have : b1 = m.get_allocation owner \ {slot} := by injection h.symm
        rw [this] at hmem
        simp at hmem
      · rw [alookup_aset_ne _ _ hko] at h
        have hd := hdisj k owner.agent_id b1 b0 hko h hb0
        have : slot ∈ b0 := by rw [← hgb0]; exact hin
        exact Finset.disjoint_left.mp hd hmem this

theorem foldl_bidUpdate_alloc (epsilon : ℚ) (agent : Agent) (agents0 : List Agent) :
    ∀ (L : List Slot) (m : Market),
      m.agents = agents0 →
      m.allocations.map (fun p => p.1) = agents0.map (fun a => a.agent_id) →
      (∀ k1 k2 b1 b2, k1 ≠ k2 → alookup k1 m.allocations = some b1 →
        alookup k2 m.allocations = some b2 → Disjoint b1 b2) →
      (∀ x ∈ L, x ∉ m.get_allocation agent) →
      ((L.foldl (bidUpdate epsilon agent) m).allocations.map (fun p => p.1)
          = agents0.map (fun a => a.agent_id) ∧
        (∀ k b1, alookup k (L.foldl (bidUpdate epsilon agent) m).allocations = some b1 →
          ∃ b0, alookup k m.allocations = some b0 ∧ b1 ⊆ b0) ∧
        alookup agent.agent_id (L.foldl (bidUpdate epsilon agent) m).allocations
          = alookup agent.agent_id m.allocations ∧
        (∀ x ∈ L, ∀ k b1, k ≠ agent.agent_id →
          alookup k (L.foldl (bidUpdate epsilon agent) m).allocations = some b1 →
          x ∉ b1)) := by
  intro L
  induction L with
  | nil =>
      intro m _ hkeys _ _
      refine ⟨hkeys, fun k b1 h => ⟨b1, h, subset_refl _⟩, rfl, ?_⟩
      intro x hx
      cases hx
  | cons y ys ih =>
      intro m hag hkeys hdisj hnotin
      rw [List.foldl_cons]
      have hstep := bidUpdate_alloc_step epsilon agent m y agents0 hag hkeys hdisj
        (hnotin y (List.mem_cons_self _ _))
      obtain ⟨s1, s2, s3, s4⟩ := hstep
      have hag1 : (bidUpdate epsilon agent m y).agents = agents0 := by
        rw [bidUpdate_agents, hag]
      have hdisj1 : ∀ k1 k2 b1 b2, k1 ≠ k2 →
          alookup k1 (bidUpdate epsilon agent m y).allocations = some b1 →
          alookup k2 (bidUpdate epsilon agent m y).allocations = some b2 →
          Disjoint b1 b2 := by
        intro k1 k2 b1 b2 hne h1 h2
        obtain ⟨c1, hc1, hs1⟩ := s2 k1 b1 h1
        obtain ⟨c2, hc2, hs2⟩ := s2 k2 b2 h2
        exact Finset.disjoint_of_subset_left hs1
          (Finset.disjoint_of_subset_right hs2 (hdisj k1 k2 c1 c2 hne hc1 hc2))
      have hnotin1 : ∀ x ∈ ys, x ∉ (bidUpdate epsilon agent m y).get_allocation agent := by
        intro x hx
        show x ∉ (alookup agent.agent_id (bidUpdate epsilon agent m y).allocations).getD ∅
        rw [s3]
        exact hnotin x (List.mem_cons_of_mem _ hx)
      obtain ⟨i1, i2, i3, i4⟩ := ih (bidUpdate epsilon agent m y) hag1 s1 hdisj1 hnotin1
      refine ⟨i1, ?_, by rw [i3, s3], ?_⟩
      · intro k b1 h
        obtain ⟨c1, hc1, hs1⟩ := i2 k b1 h
        obtain ⟨c0, hc0, hs0⟩ := s2 k c1 hc1
        exact ⟨c0, hc0, subset_trans hs1 hs0⟩
      · intro x hx k b1 hk h
        rcases List.mem_cons.mp hx with rfl | hx2
        · obtain ⟨c1, hc1, hs1⟩ := i2 k b1 h
          have := s4 k c1 hk hc1
          exact fun hmem => this (hs1 hmem)
        · exact i4 x hx2 k b1 hk h

theorem allocSnapshot_disjoint {m : Market} {slots0 : List Slot}
    (hS : (slots0.map (fun s => s.slot_id)).Nodup)
    (hdisj : ∀ k1 k2 b1 b2, k1 ≠ k2 → alookup k1 m.allocations = some b1 →
      alookup k2 m.allocations = some b2 → Disjoint b1 b2)
    (hcat : ∀ k b, alookup k m.allocations = some b → ∀ x ∈ b, x ∈ slots0) :
    ∀ p1 ∈ allocSnapshot m, ∀ p2 ∈ allocSnapshot m, p1.1 ≠ p2.1 →
      ∀ x, x ∈ p1.2 → x ∉ p2.2 := by
  intro p1 hp1 p2 hp2 hne x hx1 hx2
  obtain ⟨a1, _, rfl⟩ := List.mem_map.mp hp1
  obtain ⟨a2, _, rfl⟩ := List.mem_map.mp hp2
  simp only at hne hx1 hx2
  rw [Finset.mem_sort] at hx1 hx2
  obtain ⟨s1, hs1, hs1x⟩ := Finset.mem_image.mp hx1
  obtain ⟨s2, hs2, hs2x⟩ := Finset.mem_image.mp hx2
  have hb1 : ∃ b1, alookup a1.agent_id m.allocations = some b1 ∧ s1 ∈ b1 := by
    unfold Market.get_allocation at hs1
    rcases hb : alookup a1.agent_id m.allocations with _ | b1
    · rw [hb] at hs1; simp at hs1
    · rw [hb] at hs1; exact ⟨b1, rfl, hs1⟩
  have hb2 : ∃ b2, alookup a2.agent_id m.allocations = some b2 ∧ s2 ∈ b2 := by
    unfold Market.get_allocation at hs2
    rcases hb : alookup a2.agent_id m.allocations with _ | b2
    · rw [hb] at hs2; simp at hs2
    · rw [hb] at hs2; exact ⟨b2, rfl, hs2⟩
  obtain ⟨b1, hb1l, hb1m⟩ := hb1
  obtain ⟨b2, hb2l, hb2m⟩ := hb2
  have hd := hdisj a1.agent_id a2.agent_id b1 b2 hne hb1l hb2l
  have hs12 : s1 ≠ s2 := fun he => Finset.disjoint_left.mp hd hb1m (he ▸ hb2m)
  have hinj := List.inj_on_of_nodup_map hS
  exact hs12 (hinj (hcat _ _ hb1l s1 hb1m) (hcat _ _ hb2l s2 hb2m) (hs1x.trans hs2x.symm))

theorem foldl_bidUpdate_agents (epsilon : ℚ) (agent : Agent) :
    ∀ (L : List Slot) (m : Market), (L.foldl (bidUpdate epsilon agent) m).agents = m.agents := by
  intro L
  induction L with
  | nil => intro m; rfl
  | cons y ys ih =>
      intro m
      rw [List.foldl_cons, ih, bidUpdate_agents]

theorem foldl_bidUpdate_slots (epsilon : ℚ) (agent : Agent) :
    ∀ (L : List Slot) (m : Market), (L.foldl (bidUpdate epsilon agent) m).slots = m.slots := by
  intro L
  induction L with
  | nil => intro m; rfl
  | cons y ys ih =>
      intro m
      rw [List.foldl_cons, ih, bidUpdate_slots]

theorem auctionRoundStep_agents (epsilon : ℚ) (st : RunState × Bool) (agent : Agent) :
    (auctionRoundStep epsilon st agent).1.market.agents = st.1.market.agents := by
  rw [auctionRoundStep_market]
  split
  · show ((_ : Market).set_allocation agent _).agents = _
    rw [(set_allocation_shape _ _ _).2.1, foldl_bidUpdate_agents]
  · rw [foldl_bidUpdate_agents]

theorem AllocInv_roundStep (epsilon : ℚ) (agents0 : List Agent) (slots0 : List Slot)
    (hS : (slots0.map (fun s => s.slot_id)).Nodup)
    (st : RunState × Bool) (agent : Agent) (hagent : agent ∈ agents0)
    (h : AllocInv agents0 slots0 st.1) :
    AllocInv agents0 slots0 (auctionRoundStep epsilon st agent).1 := by
  obtain ⟨hag, hsl, hkeys, hdisj, hcat, htrace⟩ := h
  set m := st.1.market with hm
  set cur := m.get_allocation agent with hcur
  set bb := (agent.find_best_bundle m.slots (m.compute_ask_prices agent epsilon) cur).1
    with hbb
  set L := slotList (bb \ cur) with hL
  have hnotin : ∀ x ∈ L, x ∉ m.get_allocation agent := by
    intro x hx
    rw [hL, slotList, Finset.mem_sort] at hx
    exact (Finset.mem_sdiff.mp hx).2
  obtain ⟨f1, f2, f3, f4⟩ :=
    foldl_bidUpdate_alloc epsilon agent agents0 L m hag hkeys hdisj hnotin
  set m1 := L.foldl (bidUpdate epsilon agent) m with hm1
  have hdisj1 : ∀ k1 k2 b1 b2, k1 ≠ k2 → alookup k1 m1.allocations = some b1 →
      alookup k2 m1.allocations = some b2 → Disjoint b1 b2 := by
    intro k1 k2 b1 b2 hne h1 h2
    obtain ⟨c1, hc1, hs1⟩ := f2 k1 b1 h1
    obtain ⟨c2, hc2, hs2⟩ := f2 k2 b2 h2
    exact Finset.disjoint_of_subset_left hs1
      (Finset.disjoint_of_subset_right hs2 (hdisj k1 k2 c1 c2 hne hc1 hc2))
  have hcat1 : ∀ k b, alookup k m1.allocations = some b → ∀ x ∈ b, x ∈ slots0 := by
    intro k b hb x hx
    obtain ⟨c, hc, hs⟩ := f2 k b hb
    exact hcat k c hc x (hs hx)
  have hbbsub : ∀ x ∈ bb, x ∈ slots0 := by
    intro x hx
    have := find_best_bundle_subset agent m.slots (m.compute_ask_prices agent epsilon) cur x hx
    rwa [hsl] at this
  have hcurb : ∀ x ∈ cur, ∃ cb, alookup agent.agent_id m.allocations = some cb ∧ x ∈ cb := by
    intro x hx
    rw [hcur] at hx
    unfold Market.get_allocation at hx
    rcases hb : alookup agent.agent_id m.allocations with _ | cb
    · rw [hb] at hx; simp at hx
    · rw [hb] at hx; exact ⟨cb, rfl, hx⟩
  have hmarket : (auctionRoundStep epsilon st agent).1.market
      = (if bb ≠ cur then m1.set_allocation agent bb else m1) := by
    rw [auctionRoundStep_market]
  have hother : ∀ k b2, k ≠ agent.agent_id → alookup k m1.allocations = some b2 →
      Disjoint bb b2 := by
    intro k b2 hk h2
    rw [Finset.disjoint_left]
    intro x hxbb hxb2
    by_cases hxcur : x ∈ cur
    · obtain ⟨cb, hcb, hxcb⟩ := hcurb x hxcur
      have hcb1 : alookup agent.agent_id m1.allocations = some cb := by rw [f3]; exact hcb
      have := hdisj1 k agent.agent_id b2 cb hk h2 hcb1
      exact Finset.disjoint_left.mp this hxb2 hxcb
    · have hxnew : x ∈ L := by
        rw [hL, slotList, Finset.mem_sort, Finset.mem_sdiff]
        exact ⟨hxbb, hxcur⟩
      exact f4 x hxnew k b2 hk h2 hxb2
  have halloc2 : ∀ k1 k2 b1 b2, k1 ≠ k2 →
      alookup k1 (auctionRoundStep epsilon st agent).1.market.allocations = some b1 →
      alookup k2 (auctionRoundStep epsilon st agent).1.market.allocations = some b2 →
      Disjoint b1 b2 := by
    rw [hmarket]
    split
    · intro k1 k2 b1 b2 hne h1 h2
      have e1 : (m1.set_allocation agent bb).allocations
          = aset agent.agent_id bb m1.allocations := rfl
      rw [e1] at h1 h2
      by_cases hk1 : k1 = agent.agent_id
      · subst hk1
        rw [alookup_aset_self] at h1
        rw [alookup_aset_ne _ _ (fun hh => hne hh.symm)] at h2
        have hb1 : b1 = bb := by injection h1.symm
        rw [hb1]
        exact hother k2 b2 (fun hh => hne hh.symm) h2
      · rw [alookup_aset_ne _ _ hk1] at h1
        by_cases hk2 : k2 = agent.agent_id
        · subst hk2
          rw [alookup_aset_self] at h2
          have hb2 : b2 = bb := by injection h2.symm
          rw [hb2]
          exact (hother k1 b1 hk1 h1).symm
        · rw [alookup_aset_ne _ _ hk2] at h2
          exact hdisj1 k1 k2 b1 b2 hne h1 h2
    · exact hdisj1
  refine ⟨?_, ?_, ?_, halloc2, ?_, ?_⟩
  · rw [auctionRoundStep_agents, hag]
  · rw [hmarket]
    split
    · show ((m1.set_allocation agent bb)).slots = slots0
      rw [(set_allocation_shape _ _ _).1, foldl_bidUpdate_slots, hsl]
    · show m1.slots = slots0
      rw [hm1, foldl_bidUpdate_slots, hsl]
  · rw [hmarket]
    split
    · show (aset agent.agent_id bb m1.allocations).map (fun p => p.1)
        = agents0.map (fun a => a.agent_id)
      have hsome : (alookup agent.agent_id m1.allocations).isSome = true := by
        rw [alookup_isSome_iff_mem_keys, f1]
        exact List.mem_map.mpr ⟨agent, hagent, rfl⟩
      rw [aset_keys _ _ _ hsome, f1]
    · exact f1
  · rw [hmarket]
    split
    · intro k b hb x hx
      have e1 : (m1.set_allocation agent bb).allocations
          = aset agent.agent_id bb m1.allocations := rfl
      rw [e1] at hb
      by_cases hk : k = agent.agent_id
      · subst hk
        rw [alookup_aset_self] at hb
        have : b = bb := by injection hb.symm
        exact hbbsub x (this ▸ hx)
      · rw [alookup_aset_ne _ _ hk] at hb
        exact hcat1 k b hb x hx
    · exact hcat1
  · intro r hrmem
    rw [auctionRoundStep_rounds] at hrmem
    rcases List.mem_append.mp hrmem with h1 | h1
    · exact htrace r h1
    · rcases List.mem_singleton.mp h1 with rfl
      exact allocSnapshot_disjoint hS hdisj hcat

theorem AllocInv_foldl (epsilon : ℚ) (agents0 : List Agent) (slots0 : List Slot)
    (hS : (slots0.map (fun s => s.slot_id)).Nodup) :
    ∀ (l : List Agent) (acc : RunState × Bool), (∀ a ∈ l, a ∈ agents0) →
      AllocInv agents0 slots0 acc.1 →
      AllocInv agents0 slots0 (l.foldl (auctionRoundStep epsilon) acc).1 := by
  intro l
  induction l with
  | nil => exact fun acc _ h => h
  | cons a l ih =>
      intro acc hmem h
      rw [List.foldl_cons]
      exact ih _ (fun x hx => hmem x (List.mem_cons_of_mem _ hx))
        (AllocInv_roundStep epsilon agents0 slots0 hS acc a
          (hmem a (List.mem_cons_self _ _)) h)

theorem AllocInv_runPasses (epsilon : ℚ) (agents0 : List Agent) (slots0 : List Slot)
    (hS : (slots0.map (fun s => s.slot_id)).Nodup) :
    ∀ (fuel : Nat) (st : RunState), AllocInv agents0 slots0 st →
      AllocInv agents0 slots0 (runPasses epsilon fuel st) := by
  intro fuel
  induction fuel with
  | zero => exact fun st h => h
  | succ f ih =>
      intro st h
      simp only [runPasses]
      have hpass : AllocInv agents0 slots0 (runPass epsilon st).1 := by
        unfold runPass
        refine AllocInv_foldl epsilon agents0 slots0 hS st.market.agents (st, false) ?_ h
        intro a ha
        rwa [h.1] at ha
      by_cases hchg : (runPass epsilon st).2
      · rw [if_pos hchg]
        exact ih _ hpass
      · rw [if_neg hchg]
        exact hpass

theorem AllocInv_init (agents : List Agent) (slots : List Slot) :
    AllocInv agents slots ⟨Market.init agents slots, [], 0, 0⟩ := by
  have hempty : ∀ k b, alookup k (Market.init agents slots).allocations = some b → b = ∅ := by
    intro k b hb
    have : (Market.init agents slots).allocations
        = (agents.map (fun a => a.agent_id)).map (fun k => (k, (∅ : Finset Slot))) := by
      show agents.map (fun a => (a.agent_id, (∅ : Finset Slot))) = _
      rw [List.map_map]
      rfl
    rw [this, alookup_keyed_map] at hb
    split at hb
    · injection hb.symm
    · cases hb
  refine ⟨rfl, rfl, ?_, ?_, ?_, ?_⟩
  · show (agents.map (fun a => (a.agent_id, (∅ : Finset Slot)))).map (fun p => p.1)
      = agents.map (fun a => a.agent_id)
    rw [List.map_map]
    rfl
  · intro k1 k2 b1 b2 _ h1 h2
    rw [hempty k1 b1 h1]
    exact Finset.disjoint_empty_left _
  · intro k b hb x hx
    rw [hempty k b hb] at hx
    cases hx
  · intro r hrmem
    cases hrmem

theorem find?_owner {m : Market} {x : Slot} {a1 : Agent} :
    ∀ (l : List Agent), a1 ∈ l → x ∈ m.get_allocation a1 →
      (∀ a2 ∈ l, a2 ≠ a1 → x ∉ m.get_allocation a2) →
      l.find? (fun a => decide (x ∈ m.get_allocation a)) = some a1 := by
  intro l
  induction l with
  | nil => intro h; cases h
  | cons a l ih =>
      intro hmem hx hothers
      by_cases ha : a = a1
      · subst ha
        rw [List.find?_cons_of_pos _ (by simpa using hx)]
      · have hnot : x ∉ m.get_allocation a :=
          hothers a (List.mem_cons_self _ _) ha
        rw [List.find?_cons_of_neg _ (by simpa using hnot)]
        have hmem2 : a1 ∈ l := by
          rcases List.mem_cons.mp hmem with h1 | h1
          · exact absurd h1.symm ha
          · exact h1
        exact ih hmem2 hx (fun a2 h2 => hothers a2 (List.mem_cons_of_mem _ h2))

/-! ### Claim C6: the partition invariant -/

/-- Claim C6: in every run started from a freshly constructed market (empty
allocations), every trace snapshot's per-agent allocated-slot-id lists are
pairwise disjoint across distinct agent ids, the final market's bundles of
agents with distinct ids are pairwise disjoint, and every allocated slot's
owner is unique and consistent with `get_slot_owner`, which returns exactly
the agent holding it. -/
theorem auction_partition_invariant (A : AscendingAuction) (agents : List Agent)
    (slots : List Slot) (hA : (agents.map (fun a => a.agent_id)).Nodup)
    (hS : (slots.map (fun s => s.slot_id)).Nodup) :
    (∀ r ∈ (A.runLoop (Market.init agents slots)).rounds,
      ∀ p1 ∈ r.allocations, ∀ p2 ∈ r.allocations, p1.1 ≠ p2.1 →
        ∀ x, x ∈ p1.2 → x ∉ p2.2) ∧
    (∀ a1 ∈ agents, ∀ a2 ∈ agents, a1.agent_id ≠ a2.agent_id →
      Disjoint ((A.runLoop (Market.init agents slots)).market.get_allocation a1)
        ((A.runLoop (Market.init agents slots)).market.get_allocation a2)) ∧
    (∀ a1 ∈ agents, ∀ x ∈ (A.runLoop (Market.init agents slots)).market.get_allocation a1,
      (A.runLoop (Market.init agents slots)).market.get_slot_owner x = some a1) := by
  have hfin : AllocInv agents slots (A.runLoop (Market.init agents slots)) :=
    AllocInv_runPasses A.epsilon agents slots hS A.max_iterations _
      (AllocInv_init agents slots)
  obtain ⟨hag, hsl, hkeys, hdisj, hcat, htrace⟩ := hfin
  set mf := (A.runLoop (Market.init agents slots)).market with hmf
  have hdisjA : ∀ a1 ∈ agents, ∀ a2 ∈ agents, a1.agent_id ≠ a2.agent_id →
      Disjoint (mf.get_allocation a1) (mf.get_allocation a2) := by
    intro a1 _ a2 _ hne
    unfold Market.get_allocation
    rcases h1 : alookup a1.agent_id mf.allocations with _ | b1
    · simp
    · rcases h2 : alookup a2.agent_id mf.allocations with _ | b2
      · simp
      · simpa using hdisj a1.agent_id a2.agent_id b1 b2 hne h1 h2
  refine ⟨htrace, hdisjA, ?_⟩
  intro a1 ha1 x hx
  show mf.agents.find? (fun a => decide (x ∈ mf.get_allocation a)) = some a1
  rw [hag]
  refine find?_owner agents ha1 hx ?_
  intro a2 ha2 hne hx2
  have hid : a2.agent_id ≠ a1.agent_id := by
    intro he
    exact hne (List.inj_on_of_nodup_map hA ha2 ha1 he)
  exact Finset.disjoint_left.mp (hdisjA a2 ha2 a1 ha1 hid) hx2 hx

theorem auction_partition_invariant_witness :
    ([demoAgent].map (fun a => a.agent_id)).Nodup ∧
    (demoSlots.map (fun s => s.slot_id)).Nodup ∧
    ((∀ r ∈ (AscendingAuction.runLoop ⟨1, 2⟩ (Market.init [demoAgent] demoSlots)).rounds,
      ∀ p1 ∈ r.allocations, ∀ p2 ∈ r.allocations, p1.1 ≠ p2.1 →
        ∀ x, x ∈ p1.2 → x ∉ p2.2) ∧
    (∀ a1 ∈ [demoAgent], ∀ a2 ∈ [demoAgent], a1.agent_id ≠ a2.agent_id →
      Disjoint ((AscendingAuction.runLoop ⟨1, 2⟩
          (Market.init [demoAgent] demoSlots)).market.get_allocation a1)
        ((AscendingAuction.runLoop ⟨1, 2⟩
          (Market.init [demoAgent] demoSlots)).market.get_allocation a2)) ∧
    (∀ a1 ∈ [demoAgent],
      ∀ x ∈ (AscendingAuction.runLoop ⟨1, 2⟩
          (Market.init [demoAgent] demoSlots)).market.get_allocation a1,
      (AscendingAuction.runLoop ⟨1, 2⟩
          (Market.init [demoAgent] demoSlots)).market.get_slot_owner x = some a1)) :=
  ⟨by decide, by decide,
    auction_partition_invariant ⟨1, 2⟩ [demoAgent] demoSlots (by decide) (by decide)⟩

/-! ### Claim C8: the caller's market is never mutated -/

/-- A heap of dictionary objects: Python dictionaries are mutable objects,
so the two maps of a `Market` are modelled as cells in a store, addressed by
index. -/
structure Store where
  allocCells : List (List (Int × Finset Slot))
  priceCells : List (List (Int × ℚ))

/-- A `Market` as the caller holds it: shared immutable catalogs plus
references to its two dictionary cells. -/
structure MarketRef where
  agents : List Agent
  slots : List Slot
  allocId : Nat
  priceId : Nat

/-- Dereference a market: read both dictionary cells. -/
def readMarket (σ : Store) (r : MarketRef) : Market :=
  { agents := r.agents, slots := r.slots,
    allocations := σ.allocCells.getD r.allocId [],
    bid_prices := σ.priceCells.getD r.priceId [] }

/-- Translation of `Market.copy` under the store semantics: `copy.deepcopy`
allocates fresh dictionary objects holding the same bindings (new cells at
the end of the store); the agent and slot catalogs are shared. -/
def copyMarket (σ : Store) (r : MarketRef) : Store × MarketRef :=
  (⟨σ.allocCells ++ [σ.allocCells.getD r.allocId []],
    σ.priceCells ++ [σ.priceCells.getD r.priceId []]⟩,
   { agents := r.agents, slots := r.slots,
     allocId := σ.allocCells.length, priceId := σ.priceCells.length })

/-- Commit a market value to its two cells. -/
def writeMarket (σ : Store) (r : MarketRef) (m : Market) : Store :=
  ⟨σ.allocCells.set r.allocId m.allocations, σ.priceCells.set r.priceId m.bid_prices⟩

/-- `AscendingAuction.run` under the store semantics: line 100 copies on
entry, and every dictionary mutation of the loop goes through the engine's
local `market` variable — that is, the copy's cells, which the final
`writeMarket` commits. -/
def AscendingAuction.runRef (A : AscendingAuction) (σ : Store) (r : MarketRef) :
    Store × MarketRef × RunState :=
  let c := copyMarket σ r
  let st := A.runLoop (readMarket c.1 c.2)
  (writeMarket c.1 c.2 st.market, c.2, st)

/-- Claim C8: a run never mutates the caller's market — after `run`, the
caller's allocation cell and bid-price cell hold exactly the bindings they
held before; only the freshly allocated copy cells are written. -/
theorem run_never_mutates_caller (A : AscendingAuction) (σ : Store) (r : MarketRef)
    (ha : r.allocId < σ.allocCells.length) (hp : r.priceId < σ.priceCells.length) :
    (A.runRef σ r).1.allocCells.get? r.allocId = σ.allocCells.get? r.allocId ∧
    (A.runRef σ r).1.priceCells.get? r.priceId = σ.priceCells.get? r.priceId := by
  constructor
  · show ((σ.allocCells ++ [σ.allocCells.getD r.allocId []]).set σ.allocCells.length
        _).get? r.allocId = σ.allocCells.get? r.allocId
    rw [List.get?_eq_getElem?, List.get?_eq_getElem?,
      List.getElem?_set_ne (by omega), List.getElem?_append, if_pos ha]
  · show ((σ.priceCells ++ [σ.priceCells.getD r.priceId []]).set σ.priceCells.length
        _).get? r.priceId = σ.priceCells.get? r.priceId
    rw [List.get?_eq_getElem?, List.get?_eq_getElem?,
      List.getElem?_set_ne (by omega), List.getElem?_append, if_pos hp]

theorem run_never_mutates_caller_witness :
    (0 : Nat) < 1 ∧ (0 : Nat) < 1 ∧
    ((AscendingAuction.runRef ⟨1, 2⟩ ⟨[[(0, ∅)]], [[(0, 3)]]⟩
        ⟨[demoAgent], demoSlots, 0, 0⟩).1.allocCells.get? 0
      = ([[(0, ∅)]] : List (List (Int × Finset Slot))).get? 0 ∧
     (AscendingAuction.runRef ⟨1, 2⟩ ⟨[[(0, ∅)]], [[(0, 3)]]⟩
        ⟨[demoAgent], demoSlots, 0, 0⟩).1.priceCells.get? 0
      = ([[(0, 3)]] : List (List (Int × ℚ))).get? 0) :=
  ⟨by decide, by decide,
    run_never_mutates_caller ⟨1, 2⟩ ⟨[[(0, ∅)]], [[(0, 3)]]⟩
      ⟨[demoAgent], demoSlots, 0, 0⟩ (by decide) (by decide)⟩

/-! ### Claim C4: optimality of the brute-force integer-program baseline -/

/-- Soundness half of the `combos` characterization: every enumerated
combination is a sublist of the pool of the requested length. -/
theorem combos_sound {α : Type} :
    ∀ (k : Nat) (l s : List α), s ∈ combos k l → s.Sublist l ∧ s.length = k := by
  intro k l
  induction l generalizing k with
  | nil =>
    intro s hs
    cases k with
    | zero =>
      rcases List.mem_singleton.mp hs with rfl
      exact ⟨List.nil_sublist _, rfl⟩
    | succ j => cases hs
  | cons x xs ih =>
    intro s hs
    cases k with
    | zero =>
      rcases List.mem_singleton.mp hs with rfl
      exact ⟨List.nil_sublist _, rfl⟩
    | succ j =>
      rcases List.mem_append.mp hs with hl | hr
      · rcases List.mem_map.mp hl with ⟨t, ht, rfl⟩
        rcases ih j t ht with ⟨h1, h2⟩
        exact ⟨h1.cons₂ x, by simp [h2]⟩
      · rcases ih (j + 1) s hr with ⟨h1, h2⟩
        exact ⟨h1.cons x, h2⟩

/-- Completeness half of the `combos` characterization: every sublist is
enumerated at its length. -/
theorem combos_complete {α : Type} :
    ∀ (l s : List α), s.Sublist l → s ∈ combos s.length l := by
  intro l
  induction l with
  | nil =>
    intro s hs
    rw [List.sublist_nil.mp hs]
    exact List.mem_singleton.mpr rfl
  | cons x xs ih =>
    intro s hs
    cases s with
    | nil => exact List.mem_singleton.mpr rfl
    | cons y t =>
      cases hs with
      | cons a h => exact List.mem_append_right _ (ih _ h)
      | cons₂ a h => exact List.mem_append_left _ (List.mem_map_of_mem _ (ih _ h))

/-- Membership in `combos k l` is exactly being a length-`k` sublist,
matching `itertools.combinations`. -/
theorem mem_combos {α : Type} {k : Nat} {l s : List α} :
    s ∈ combos k l ↔ s.Sublist l ∧ s.length = k :=
  ⟨combos_sound k l s, fun h => h.2 ▸ combos_complete l s h.1⟩

/-- Membership in the Cartesian product `allCombos`: componentwise choice
from each list, matching `itertools.product`. -/
theorem mem_allCombos {α : Type} :
    ∀ (ls : List (List α)) (c : List α),
      c ∈ allCombos ls ↔ List.Forall₂ (fun l x => x ∈ l) ls c := by
  intro ls
  induction ls with
  | nil =>
    intro c
    simp [allCombos, List.forall₂_nil_left_iff]
  | cons l ls ih =>
    intro c
    simp only [allCombos, List.mem_flatten, List.mem_map, List.forall₂_cons_left_iff]
    constructor
    · rintro ⟨ll, ⟨x, hx, rfl⟩, hc⟩
      rcases List.mem_map.mp hc with ⟨c2, hc2, rfl⟩
      exact ⟨x, c2, hx, (ih c2).mp hc2, rfl⟩
    · rintro ⟨x, c2, hx, hf, rfl⟩
      exact ⟨(allCombos ls).map (fun c => x :: c), ⟨x, hx, rfl⟩,
        List.mem_map_of_mem _ ((ih c2).mpr hf)⟩

/-- Unfolding equation for `seqValid` on a cons cell. -/
theorem seqValid_cons (used b : Finset Slot) (bs : List (Finset Slot)) :
    seqValid used (b :: bs) =
      if (used ∩ b).Nonempty then false else seqValid (used ∪ b) bs := rfl

/-- The sequential conflict scan of `_solve_brute_force` accepts exactly the
pairwise-disjoint bundle lists that also avoid the already-used slots. -/
theorem seqValid_iff :
    ∀ (bs : List (Finset Slot)) (used : Finset Slot),
      seqValid used bs = true ↔
        List.Pairwise Disjoint bs ∧ ∀ b ∈ bs, Disjoint used b := by
  intro bs
  induction bs with
  | nil => intro used; simp [seqValid]
  | cons b bs ih =>
    intro used
    by_cases hd : Disjoint used b
    · rw [seqValid_cons, if_neg (Finset.not_nonempty_iff_eq_empty.mpr
        (Finset.disjoint_iff_inter_eq_empty.mp hd))]
      rw [ih, List.pairwise_cons]
      constructor
      · rintro ⟨hp, hall⟩
        refine ⟨⟨fun b2 hb2 => (Finset.disjoint_union_left.mp (hall b2 hb2)).2, hp⟩, ?_⟩
        intro b2 hb2
        rcases List.mem_cons.mp hb2 with rfl | hb2
        · exact hd
        · exact (Finset.disjoint_union_left.mp (hall b2 hb2)).1
      · rintro ⟨⟨hbd, hp⟩, hall⟩
        exact ⟨hp, fun b2 hb2 => Finset.disjoint_union_left.mpr
          ⟨hall b2 (List.mem_cons_of_mem _ hb2), hbd b2 hb2⟩⟩
    · rw [seqValid_cons, if_pos (Finset.nonempty_iff_ne_empty.mpr
        (fun he => hd (Finset.disjoint_iff_inter_eq_empty.mpr he)))]
      constructor
      · intro h; exact absurd h (by decide)
      · rintro ⟨_, hall⟩
        exact absurd (hall b (List.mem_cons_self b bs)) hd

/-- A successful association-list lookup comes from a binding in the list. -/
theorem alookup_mem {β : Type} {k : Int} {b : β} :
    ∀ {l : List (Int × β)}, alookup k l = some b → (k, b) ∈ l := by
  intro l
  induction l with
  | nil => intro h; simp [alookup] at h
  | cons p ps ih =>
    obtain ⟨k0, b0⟩ := p
    intro h
    simp only [alookup] at h
    by_cases hp : k0 = k
    · rw [if_pos (by simpa using hp)] at h
      rw [Option.some.injEq] at h
      subst hp
      subst h
      exact List.mem_cons_self _ _
    · rw [if_neg (by simpa using hp)] at h
      exact List.mem_cons_of_mem _ (ih h)

/-- Reading the dictionary `dict(zip(agent_ids, combo))` built by the solver:
with distinct agent ids, each agent's lookup returns its own component of the
combination, carrying any componentwise relation along. -/
theorem alookup_zip_of_forall₂ {β : Type} (R : Agent → β → Prop) :
    ∀ (ags : List Agent) (c : List β),
      (ags.map (fun a => a.agent_id)).Nodup →
      List.Forall₂ R ags c →
      ∀ a ∈ ags, ∃ b, alookup a.agent_id ((ags.map (fun a => a.agent_id)).zip c) = some b ∧ R a b := by
  intro ags
  induction ags with
  | nil =>
    intro c _ _ a ha
    exact absurd ha (List.not_mem_nil a)
  | cons a0 ags ih =>
    intro c hnd hf a ha
    rcases List.forall₂_cons_left_iff.mp hf with ⟨b0, c2, hR0, hf2, rfl⟩
    have hnd2 : a0.agent_id ∉ ags.map (fun a => a.agent_id) ∧
        (ags.map (fun a => a.agent_id)).Nodup := by
      simpa only [List.map_cons, List.nodup_cons] using hnd
    simp only [List.map_cons, List.zip_cons_cons]
    rcases List.mem_cons.mp ha with rfl | ha2
    · exact ⟨b0, by simp [alookup], hR0⟩
    · have hne : a0.agent_id ≠ a.agent_id := by
        intro he
        apply hnd2.1
        rw [he]
        exact List.mem_map_of_mem _ ha2
      rcases ih c2 hnd2.2 hf2 a ha2 with ⟨b, hb, hRb⟩
      exact ⟨b, by simp [alookup, hne, hb], hRb⟩

/-- Mapping each agent through its own lookup in `dict(zip(agent_ids, c))`
is mapping over the zipped pairs directly (distinct ids, matching length). -/
theorem map_alookup_zip {β γ : Type} (d : β) (f : Agent → β → γ) :
    ∀ (ags : List Agent) (c : List β),
      (ags.map (fun a => a.agent_id)).Nodup →
      c.length = ags.length →
      ags.map (fun a => f a ((alookup a.agent_id ((ags.map (fun a => a.agent_id)).zip c)).getD d))
        = (ags.zip c).map (fun p => f p.1 p.2) := by
  intro ags
  induction ags with
  | nil => intro c _ _; simp
  | cons a0 ags ih =>
    intro c hnd hlen
    cases c with
    | nil => simp at hlen
    | cons b0 c2 =>
      have hnd2 : a0.agent_id ∉ ags.map (fun a => a.agent_id) ∧
          (ags.map (fun a => a.agent_id)).Nodup := by
        simpa only [List.map_cons, List.nodup_cons] using hnd
      simp only [List.map_cons, List.zip_cons_cons, List.length_cons] at hlen ⊢
      have hhead : (alookup a0.agent_id
          ((a0.agent_id, b0) :: (ags.map (fun a => a.agent_id)).zip c2)).getD d = b0 := by
        simp [alookup]
      have htail : ags.map (fun a => f a ((alookup a.agent_id
            ((a0.agent_id, b0) :: (ags.map (fun a => a.agent_id)).zip c2)).getD d))
          = ags.map (fun a => f a ((alookup a.agent_id
            ((ags.map (fun a => a.agent_id)).zip c2)).getD d)) := by
        apply List.map_congr_left
        intro a ha
        have hne : a0.agent_id ≠ a.agent_id := by
          intro he
          apply hnd2.1
          rw [he]
          exact List.mem_map_of_mem _ ha
        simp [alookup, hne]
      rw [hhead, htail, ih c2 hnd2.2 (by omega)]

/-- Lookups of two different keys in an association list with distinct keys
and pairwise-disjoint values are disjoint. -/
theorem alookup_pairwise_disjoint :
    ∀ (l : List (Int × Finset Slot)),
      (l.map (fun p => p.1)).Nodup →
      (l.map (fun p => p.2)).Pairwise Disjoint →
      ∀ k1 k2 : Int, k1 ≠ k2 →
        Disjoint ((alookup k1 l).getD ∅) ((alookup k2 l).getD ∅) := by
  intro l
  induction l with
  | nil =>
    intro _ _ k1 k2 _
    simp [alookup]
  | cons p ps ih =>
    obtain ⟨k0, b0⟩ := p
    intro hnd hpw k1 k2 hne
    simp only [List.map_cons, List.nodup_cons, List.pairwise_cons] at hnd hpw
    have hval : ∀ b : Finset Slot, alookup k1 ps = some b ∨ alookup k2 ps = some b →
        b ∈ ps.map (fun p => p.2) := by
      rintro b (hb | hb) <;> exact List.mem_map_of_mem _ (alookup_mem hb)
    by_cases h1 : k0 = k1
    · subst h1
      have h2 : ¬k0 = k2 := hne
      rw [show (alookup k0 ((k0, b0) :: ps)).getD ∅ = b0 by simp [alookup]]
      rw [show alookup k2 ((k0, b0) :: ps) = alookup k2 ps by simp [alookup, h2]]
      cases hl : alookup k2 ps with
      | none => simp
      | some b2 =>
        simp only [Option.getD_some]
        exact hpw.1 b2 (hval b2 (Or.inr hl))
    · by_cases h2 : k0 = k2
      · subst h2
        rw [show (alookup k0 ((k0, b0) :: ps)).getD ∅ = b0 by simp [alookup]]
        rw [show alookup k1 ((k0, b0) :: ps) = alookup k1 ps by simp [alookup, h1]]
        cases hl : alookup k1 ps with
        | none => simp
        | some b1 =>
          simp only [Option.getD_some]
          exact (hpw.1 b1 (hval b1 (Or.inl hl))).symm
      · rw [show alookup k1 ((k0, b0) :: ps) = alookup k1 ps by simp [alookup, h1],
          show alookup k2 ((k0, b0) :: ps) = alookup k2 ps by simp [alookup, h2]]
        exact ih hnd.2 hpw.2 k1 k2 hne

/-- The body of the brute-force fold in `IntegerProgramSolver.solve`, named
so the fold can be reasoned about (definitionally equal to the lambda in
`solve`). -/
def ipStep (agents : List Agent) (slots : List Slot)
    (best : WithBot ℚ × List (Int × Finset Slot)) (combo : List (Finset Slot)) :
    WithBot ℚ × List (Int × Finset Slot) :=
  if seqValid ∅ combo then
    if best.1 < ((computeWelfareIP agents slots
        ((agents.map (fun a => a.agent_id)).zip combo) : ℚ) : WithBot ℚ) then
      (((computeWelfareIP agents slots
          ((agents.map (fun a => a.agent_id)).zip combo) : ℚ) : WithBot ℚ),
        (agents.map (fun a => a.agent_id)).zip combo)
    else best
  else best

/-- The solver's allocations are the second component of the brute-force
fold. -/
theorem solve_allocations (agents : List Agent) (slots : List Slot) :
    (IntegerProgramSolver.solve agents slots).allocations
      = ((allCombos (agents.map (fun a => generateBundles slots a))).foldl
          (ipStep agents slots) ((⊥ : WithBot ℚ), [])).2 := rfl

/-- The solver's reported welfare is the first component of the brute-force
fold. -/
theorem solve_welfare (agents : List Agent) (slots : List Slot) :
    (IntegerProgramSolver.solve agents slots).optimal_welfare
      = ((allCombos (agents.map (fun a => generateBundles slots a))).foldl
          (ipStep agents slots) ((⊥ : WithBot ℚ), [])).1 := rfl

/-- Each fold step only ever raises the recorded best welfare. -/
theorem ipStep_fst_le (agents : List Agent) (slots : List Slot)
    (best : WithBot ℚ × List (Int × Finset Slot)) (combo : List (Finset Slot)) :
    best.1 ≤ (ipStep agents slots best combo).1 := by
  unfold ipStep
  split
  · split
    · exact le_of_lt (by assumption)
    · exact le_refl _
  · exact le_refl _

/-- The recorded best welfare is monotone along the whole fold. -/
theorem ip_foldl_fst_mono (agents : List Agent) (slots : List Slot) :
    ∀ (l : List (List (Finset Slot))) (best : WithBot ℚ × List (Int × Finset Slot)),
      best.1 ≤ (l.foldl (ipStep agents slots) best).1 := by
  intro l
  induction l with
  | nil => intro best; exact le_refl _
  | cons c l ih =>
    intro best
    exact le_trans (ipStep_fst_le agents slots best c) (ih (ipStep agents slots best c))

/-- Upper-bound half of the fold: the final recorded welfare dominates the
welfare of every conflict-free combination in the list. -/
theorem ip_foldl_ub (agents : List Agent) (slots : List Slot) :
    ∀ (l : List (List (Finset Slot))) (best : WithBot ℚ × List (Int × Finset Slot))
      (combo : List (Finset Slot)), combo ∈ l → seqValid ∅ combo = true →
      ((computeWelfareIP agents slots ((agents.map (fun a => a.agent_id)).zip combo) : ℚ) : WithBot ℚ)
        ≤ (l.foldl (ipStep agents slots) best).1 := by
  intro l
  induction l with
  | nil =>
    intro best combo h
    exact absurd h (List.not_mem_nil combo)
  | cons c l ih =>
    intro best combo hmem hv
    rcases List.mem_cons.mp hmem with rfl | hmem2
    · refine le_trans ?_ (ip_foldl_fst_mono agents slots l (ipStep agents slots best combo))
      unfold ipStep
      rw [if_pos hv]
      split
      · exact le_refl _
      · exact le_of_not_lt (by assumption)
    · exact ih (ipStep agents slots best c) combo hmem2 hv

/-- Provenance half of the fold: the final state is either the initial one or
records the welfare and zipped allocation of some conflict-free combination
in the list. -/
theorem ip_foldl_prov (agents : List Agent) (slots : List Slot) :
    ∀ (l : List (List (Finset Slot))) (best : WithBot ℚ × List (Int × Finset Slot)),
      l.foldl (ipStep agents slots) best = best ∨
      ∃ combo ∈ l, seqValid ∅ combo = true ∧
        l.foldl (ipStep agents slots) best =
          (((computeWelfareIP agents slots ((agents.map (fun a => a.agent_id)).zip combo) : ℚ) : WithBot ℚ),
            (agents.map (fun a => a.agent_id)).zip combo) := by
  intro l
  induction l with
  | nil => intro best; exact Or.inl rfl
  | cons c l ih =>
    intro best
    rcases ih (ipStep agents slots best c) with heq | ⟨combo, hm, hv, heq⟩
    · rw [List.foldl_cons, heq]
      unfold ipStep
      split
      · split
        · exact Or.inr ⟨c, List.mem_cons_self c l, by assumption, rfl⟩
        · exact Or.inl rfl
      · exact Or.inl rfl
    · refine Or.inr ⟨combo, List.mem_cons_of_mem c hm, hv, ?_⟩
      rw [List.foldl_cons, heq]

/-- The all-empty choice passes the conflict scan. -/
theorem seqValid_replicate_empty :
    ∀ (n : Nat) (used : Finset Slot), seqValid used (List.replicate n ∅) = true := by
  intro n
  induction n with
  | zero => intro used; rfl
  | succ n ih =>
    intro used
    rw [List.replicate_succ, seqValid_cons, if_neg (by simp)]
    exact ih _

/-- The all-empty choice is one of the enumerated combinations: every agent's
bundle list ends with the empty bundle. -/
theorem empty_choice_mem (agents : List Agent) (slots : List Slot) :
    List.replicate agents.length (∅ : Finset Slot)
      ∈ allCombos (agents.map (fun a => generateBundles slots a)) := by
  rw [mem_allCombos]
  induction agents with
  | nil => exact List.Forall₂.nil
  | cons a ags ih =>
    rw [List.length_cons, List.replicate_succ, List.map_cons]
    exact List.Forall₂.cons (by simp [generateBundles]) ih

/-- The claim's welfare of a per-agent choice list (stated from the claim's
words, for comparison with `computeWelfareIP`): reserve value of the slots in
no chosen bundle plus each agent's valuation of its chosen bundle. -/
def choiceWelfare (agents : List Agent) (slots : List Slot)
    (choice : List (Finset Slot)) : ℚ :=
  (∑ s ∈ slots.toFinset \ (choice.foldl (fun acc b => acc ∪ b) ∅), s.reserve_price)
    + ((agents.zip choice).map (fun p => p.1.valuation p.2)).sum

/-- On the dictionary `dict(zip(agent_ids, choice))`, the solver's welfare
computation agrees with the claim's per-choice welfare (distinct agent ids,
one choice per agent). -/
theorem computeWelfare_zip (agents : List Agent) (slots : List Slot)
    (c : List (Finset Slot))
    (hnd : (agents.map (fun a => a.agent_id)).Nodup)
    (hlen : c.length = agents.length) :
    computeWelfareIP agents slots ((agents.map (fun a => a.agent_id)).zip c)
      = choiceWelfare agents slots c := by
  have hsum := map_alookup_zip (∅ : Finset Slot) (fun a b => Agent.valuation a b)
    agents c hnd hlen
  have hunion : ((agents.map (fun a => a.agent_id)).zip c).foldl (fun acc p => acc ∪ p.2) ∅
      = c.foldl (fun acc b => acc ∪ b) (∅ : Finset Slot) := by
    have hmap : ((agents.map (fun a => a.agent_id)).zip c).map Prod.snd = c :=
      List.map_snd_zip _ _ (by simp [hlen])
    calc ((agents.map (fun a => a.agent_id)).zip c).foldl (fun acc p => acc ∪ p.2) ∅
        = (((agents.map (fun a => a.agent_id)).zip c).map Prod.snd).foldl
            (fun acc b => acc ∪ b) ∅ := (List.foldl_map _ _ _ _).symm
      _ = c.foldl (fun acc b => acc ∪ b) ∅ := by rw [hmap]
  show (∑ s ∈ slots.toFinset \ (((agents.map (fun a => a.agent_id)).zip c).foldl
        (fun acc p => acc ∪ p.2) ∅), s.reserve_price)
      + (agents.map (fun a => a.valuation
          ((alookup a.agent_id ((agents.map (fun a => a.agent_id)).zip c)).getD ∅))).sum
    = (∑ s ∈ slots.toFinset \ (c.foldl (fun acc b => acc ∪ b) ∅), s.reserve_price)
      + ((agents.zip c).map (fun p => p.1.valuation p.2)).sum
  rw [hunion, hsum]

/-- The claim's notion of an acceptable nonempty bundle for an agent: exactly
`required_slots` catalog slots, all before the deadline, with positive
valuation. -/
def GoodBundle (slots : List Slot) (a : Agent) (b : Finset Slot) : Prop :=
  b.card = a.required_slots ∧ (∀ s ∈ b, s ∈ slots) ∧
    (∀ s ∈ b, s.get_time_index < a.deadline_slot_id) ∧ 0 < a.valuation b

/-- Characterization of `_generate_bundles` for one agent over a
duplicate-free catalog: its bundles are the empty bundle and exactly the
acceptable nonempty bundles. -/
theorem mem_generateBundles (slots : List Slot) (a : Agent) (hS : slots.Nodup)
    (b : Finset Slot) :
    b ∈ generateBundles slots a ↔ b = ∅ ∨ GoodBundle slots a b := by
  have hvnd : (a.get_valid_slots slots).Nodup := hS.filter _
  constructor
  · intro hb
    simp only [generateBundles, List.mem_append, List.mem_singleton] at hb
    rcases hb with hb | rfl
    · right
      rcases (by
          by_cases hle : a.required_slots ≤ (a.get_valid_slots slots).length
          · rw [if_pos hle] at hb
            exact hb
          · rw [if_neg hle] at hb
            exact absurd hb (List.not_mem_nil b) :
          b ∈ (combos a.required_slots (a.get_valid_slots slots)).filterMap (fun c =>
            if 0 < a.valuation c.toFinset then some c.toFinset else none)) with hb2
      rcases List.mem_filterMap.mp hb2 with ⟨c, hc, hcb⟩
      rcases mem_combos.mp hc with ⟨hsub, hclen⟩
      have hcnd : c.Nodup := hsub.nodup hvnd
      have hbc : b = c.toFinset ∧ 0 < a.valuation c.toFinset := by
        by_cases hpos : 0 < a.valuation c.toFinset
        · rw [if_pos hpos] at hcb
          exact ⟨(Option.some.inj hcb).symm, hpos⟩
        · rw [if_neg hpos] at hcb
          exact absurd hcb (by simp)
      obtain ⟨rfl, hpos⟩ := hbc
      refine ⟨?_, ?_, ?_, hpos⟩
      · rw [List.toFinset_card_of_nodup hcnd, hclen]
      · intro s hs
        have hsv : s ∈ a.get_valid_slots slots := hsub.subset (List.mem_toFinset.mp hs)
        exact (List.mem_filter.mp hsv).1
      · intro s hs
        have hsv : s ∈ a.get_valid_slots slots := hsub.subset (List.mem_toFinset.mp hs)
        exact of_decide_eq_true (List.mem_filter.mp hsv).2
    · exact Or.inl rfl
  · rintro (rfl | ⟨hcard, hsub, hdl, hval⟩)
    · simp [generateBundles]
    · have hbv : ∀ s ∈ b, s ∈ a.get_valid_slots slots := by
        intro s hs
        exact List.mem_filter.mpr ⟨hsub s hs, decide_eq_true (hdl s hs)⟩
      have hc1 : ((a.get_valid_slots slots).filter (fun s => s ∈ b)).Sublist
          (a.get_valid_slots slots) := List.filter_sublist _
      have hcnd : ((a.get_valid_slots slots).filter (fun s => s ∈ b)).Nodup :=
        hvnd.filter _
      have hctf : ((a.get_valid_slots slots).filter (fun s => s ∈ b)).toFinset = b := by
        ext s
        simp only [List.mem_toFinset, List.mem_filter, decide_eq_true_eq]
        exact ⟨fun h => h.2, fun h => ⟨hbv s h, h⟩⟩
      have hclen : ((a.get_valid_slots slots).filter (fun s => s ∈ b)).length
          = a.required_slots := by
        rw [← List.toFinset_card_of_nodup hcnd, hctf, hcard]
      have hcm : (a.get_valid_slots slots).filter (fun s => s ∈ b)
          ∈ combos a.required_slots (a.get_valid_slots slots) :=
        mem_combos.mpr ⟨hc1, hclen⟩
      have hlen : a.required_slots ≤ (a.get_valid_slots slots).length := by
        have := hc1.length_le
        omega
      simp only [generateBundles, List.mem_append, List.mem_singleton]
      left
      rw [if_pos hlen]
      apply List.mem_filterMap.mpr
      refine ⟨(a.get_valid_slots slots).filter (fun s => s ∈ b), hcm, ?_⟩
      rw [hctf, if_pos hval]

/-- The solver's allocation read back as one chosen bundle per agent, in
agent order (a missing binding reads as the empty bundle, as in Python
`allocation.get(agent_id, frozenset())`). -/
def solChoice (agents : List Agent) (slots : List Slot) : List (Finset Slot) :=
  agents.map (fun a =>
    (alookup a.agent_id (IntegerProgramSolver.solve agents slots).allocations).getD ∅)

/-- Claim C4: over markets with distinct agent ids and distinct slot ids, the
brute-force baseline reports `solved = true`; assigns each agent either the
empty bundle or a bundle of exactly `required_slots` pre-deadline catalog
slots with positive valuation; assigns no slot to two different agents; its
reported optimal welfare is exactly the welfare (reserve value of unchosen
slots plus the agents' valuations) of its own per-agent choice; and that
welfare is greater than or equal to the welfare of every other conflict-free
per-agent combination of such bundles. -/
theorem ip_solver_optimal (agents : List Agent) (slots : List Slot)
    (hA : (agents.map (fun a => a.agent_id)).Nodup)
    (hS : (slots.map (fun s => s.slot_id)).Nodup) :
    (IntegerProgramSolver.solve agents slots).solved = true ∧
    (∀ a ∈ agents,
      (alookup a.agent_id (IntegerProgramSolver.solve agents slots).allocations).getD ∅ = ∅ ∨
      GoodBundle slots a
        ((alookup a.agent_id (IntegerProgramSolver.solve agents slots).allocations).getD ∅)) ∧
    (∀ k1 k2 : Int, k1 ≠ k2 →
      Disjoint ((alookup k1 (IntegerProgramSolver.solve agents slots).allocations).getD ∅)
        ((alookup k2 (IntegerProgramSolver.solve agents slots).allocations).getD ∅)) ∧
    (IntegerProgramSolver.solve agents slots).optimal_welfare
      = ((choiceWelfare agents slots (solChoice agents slots) : ℚ) : WithBot ℚ) ∧
    (∀ choice : List (Finset Slot),
      List.Forall₂ (fun a b => b = ∅ ∨ GoodBundle slots a b) agents choice →
      choice.Pairwise Disjoint →
      choiceWelfare agents slots choice
        ≤ choiceWelfare agents slots (solChoice agents slots)) := by
  have hSnd : slots.Nodup := List.Nodup.of_map _ hS
  rcases ip_foldl_prov agents slots
      (allCombos (agents.map (fun a => generateBundles slots a)))
      ((⊥ : WithBot ℚ), []) with heq | ⟨combo, hm, hv, heq⟩
  · exfalso
    have hub := ip_foldl_ub agents slots
      (allCombos (agents.map (fun a => generateBundles slots a)))
      ((⊥ : WithBot ℚ), [])
      (List.replicate agents.length ∅)
      (empty_choice_mem agents slots)
      (seqValid_replicate_empty agents.length ∅)
    rw [heq] at hub
    exact WithBot.not_coe_le_bot _ hub
  · have hfor := (mem_allCombos _ combo).mp hm
    have hforb : List.Forall₂ (fun a b => b ∈ generateBundles slots a) agents combo :=
      List.forall₂_map_left_iff.mp hfor
    have hlen : combo.length = agents.length := by
      have h1 := hfor.length_eq
      simpa using h1.symm
    have hvalid := (seqValid_iff combo ∅).mp hv
    have halloc : (IntegerProgramSolver.solve agents slots).allocations
        = (agents.map (fun a => a.agent_id)).zip combo := by
      rw [solve_allocations, heq]
    have hwelf : (IntegerProgramSolver.solve agents slots).optimal_welfare
        = ((computeWelfareIP agents slots
            ((agents.map (fun a => a.agent_id)).zip combo) : ℚ) : WithBot ℚ) := by
      rw [solve_welfare, heq]
    have hchoice : solChoice agents slots = combo := by
      unfold solChoice
      rw [halloc]
      calc agents.map (fun a =>
            (alookup a.agent_id ((agents.map (fun a => a.agent_id)).zip combo)).getD ∅)
          = (agents.zip combo).map (fun p => p.2) :=
            map_alookup_zip ∅ (fun _ b => b) agents combo hA hlen
        _ = combo := List.map_snd_zip agents combo (le_of_eq (by simp [hlen]))
    refine ⟨rfl, ?_, ?_, ?_, ?_⟩
    · intro a ha
      rcases alookup_zip_of_forall₂ (fun a b => b ∈ generateBundles slots a)
        agents combo hA hforb a ha with ⟨b, hb, hRb⟩
      rw [halloc, hb, Option.getD_some]
      exact (mem_generateBundles slots a hSnd b).mp hRb
    · intro k1 k2 hk
      rw [halloc]
      refine alookup_pairwise_disjoint _ ?_ ?_ k1 k2 hk
      · rw [show ((agents.map (fun a => a.agent_id)).zip combo).map (fun p => p.1)
            = agents.map (fun a => a.agent_id) from
            List.map_fst_zip _ _ (le_of_eq (by simp [hlen]))]
        exact hA
      · rw [show ((agents.map (fun a => a.agent_id)).zip combo).map (fun p => p.2)
            = combo from List.map_snd_zip _ _ (le_of_eq (by simp [hlen]))]
        exact hvalid.1
    · rw [hwelf, hchoice]
      exact_mod_cast computeWelfare_zip agents slots combo hA hlen
    · intro choice hfc hpd
      have hmemc : choice ∈ allCombos (agents.map (fun a => generateBundles slots a)) := by
        rw [mem_allCombos, List.forall₂_map_left_iff]
        refine hfc.imp ?_
        intro a b hab
        exact (mem_generateBundles slots a hSnd b).mpr hab
      have hlenc : choice.length = agents.length := hfc.length_eq.symm
      have hvc : seqValid ∅ choice = true :=
        (seqValid_iff choice ∅).mpr ⟨hpd, fun b _ => Finset.disjoint_empty_left b⟩
      have hub := ip_foldl_ub agents slots
        (allCombos (agents.map (fun a => generateBundles slots a)))
        ((⊥ : WithBot ℚ), []) choice hmemc hvc
      rw [heq] at hub
      have hub2 : ((computeWelfareIP agents slots
            ((agents.map (fun a => a.agent_id)).zip choice) : ℚ) : WithBot ℚ)
          ≤ ((computeWelfareIP agents slots
            ((agents.map (fun a => a.agent_id)).zip combo) : ℚ) : WithBot ℚ) := hub
      have hle := WithBot.coe_le_coe.mp hub2
      rw [computeWelfare_zip agents slots choice hA hlenc,
        computeWelfare_zip agents slots combo hA hlen] at hle
      rw [hchoice]
      exact hle

theorem ip_solver_optimal_witness :
    ([demoAgent].map (fun a => a.agent_id)).Nodup ∧
    (demoSlots.map (fun s => s.slot_id)).Nodup ∧
    (IntegerProgramSolver.solve [demoAgent] demoSlots).solved = true ∧
    (IntegerProgramSolver.solve [demoAgent] demoSlots).optimal_welfare
      = ((choiceWelfare [demoAgent] demoSlots
          (solChoice [demoAgent] demoSlots) : ℚ) : WithBot ℚ) :=
  ⟨by decide, by decide,
    (ip_solver_optimal [demoAgent] demoSlots (by decide) (by decide)).1,
    (ip_solver_optimal [demoAgent] demoSlots (by decide) (by decide)).2.2.2.1⟩
